import Mathlib

/-!
Verification development for the ProWriter backend.

We give a shallow embedding of the three core modules the claims are about:

* the artifact versioning store (`src/unnamed/part_003`, i.e. `artifacts.ts`),
* the prose analyzer (`src/unnamed/part_004`, i.e. `prose_diagnostics.ts`),
* the deterministic de-AI heuristic engine (`src/src/deai.ts`),

and prove or refute the frozen claims against that embedding.

Modelling conventions:

* JavaScript strings are lists of UTF-16 code units; every character that
  occurs in this development lies in the Basic Multilingual Plane and is not a
  surrogate, so we represent a JS string as `List Char` with one `Char` per
  code unit.  `String.prototype.slice` with nonnegative arguments is
  `(List.take b) ∘ (List.drop a)` composed appropriately, with the same
  clamping behaviour.
* Database identifiers, artifact names and payloads are opaque to the store
  logic, so they are represented by `Nat`.
* The external schema validator (`validateArtifactPayload`, delegated by the
  spec §6 to a collaborator outside the core) is a parameter
  `validate : ArtifactType → Nat → Option Nat`; `none` models a thrown
  `ValidationError`.
* Errors (`NotFoundError`, validation failures, unique-constraint aborts) and
  "not found" results are both modelled as `none`; no claim distinguishes the
  two.
-/

namespace ProWriter

/-! ## JS string basics -/

/-- A JavaScript string: one entry per UTF-16 code unit (all strings in this
development are surrogate-free, so a `Char` faithfully carries one unit). -/
abbrev JStr := List Char

/-- Embed a Lean string literal as a JS string. -/
def jstr (s : String) : JStr := s.data

/-- `t.slice(a, b)` for `0 ≤ a` and `0 ≤ b`: the substring at offsets
`[a, b)`, clamped to the string, empty when `a ≥ b`. -/
def jsSlice (t : JStr) (a b : Nat) : JStr := (t.take b).drop a

/-! ## Artifact store (src/unnamed/part_003) -/

/-- The closed set of artifact types (`types.ts`). -/
inductive ArtifactType where
  | style_profile
  | character_sheet
  | draft_directive
  | revision_plan
  | quality_report
  | freeform_note
deriving DecidableEq, Repr

/-- A row of the `artifact` table.  `currentRevisionId` is the "current"
pointer (`null` just after `artifact.create`, before the pointer update). -/
structure Artifact where
  id : Nat
  projectId : Nat
  type : ArtifactType
  name : Nat
  schemaVersion : Nat
  currentRevisionId : Option Nat
deriving DecidableEq, Repr

/-- A row of the `artifactRevision` table. -/
structure ArtifactRevision where
  id : Nat
  artifactId : Nat
  revisionNumber : Nat
  payload : Nat
deriving DecidableEq, Repr

/-- The durable store: the `project`, `artifact` and `artifactRevision`
tables, plus fresh-id counters standing for the id generator.  `created_at`
timestamps are not modelled (no claim mentions time). -/
structure Store where
  projects : List Nat
  artifacts : List Artifact
  revisions : List ArtifactRevision
  nextArtifactId : Nat
  nextRevisionId : Nat
deriving DecidableEq, Repr

/-- The argument record of `upsertArtifact`. -/
structure UpsertParams where
  projectId : Nat
  type : ArtifactType
  name : Nat
  schemaVersion : Nat
  payload : Nat
deriving DecidableEq, Repr

/-- The result record of `upsertArtifact`. -/
structure UpsertResult where
  artifact_id : Nat
  type : ArtifactType
  name : Nat
  schema_version : Nat
  revision : Nat
deriving DecidableEq, Repr

/-- The result record of `getArtifactLatest`. -/
structure LatestResult where
  artifact_id : Nat
  type : ArtifactType
  name : Nat
  schema_version : Nat
  revision : Nat
  payload : Nat
deriving DecidableEq, Repr

/-- `prisma.artifact.findUnique({ where: { projectId_type_name: … } })`:
the (at most one, by the composite unique constraint) artifact row with the
given triple. -/
def findArtifact (s : Store) (pid : Nat) (ty : ArtifactType) (nm : Nat) :
    Option Artifact :=
  s.artifacts.find? fun a => a.projectId == pid && a.type == ty && a.name == nm

/-- `existing.revisions[0]?.revisionNumber ?? 0` after
`orderBy: { revisionNumber: "desc" }, take: 1`: the greatest revision number
of the artifact, or `0` when it has none. -/
def maxRevNum (s : Store) (aid : Nat) : Nat :=
  ((s.revisions.filter fun r => r.artifactId == aid).map
    (fun r => r.revisionNumber)).foldr Nat.max 0

/-- `upsertArtifact` (part_003 lines 16–101), sequential semantics: checks the
project (`ensureProject`), validates the payload, looks the triple up; on a
miss it creates the artifact, its revision number 1 and moves the pointer in
one transaction; on a hit it appends revision `max + 1` and updates the
artifact's `schemaVersion` and pointer in one transaction.  `none` models any
thrown error. -/
def upsertArtifact (validate : ArtifactType → Nat → Option Nat) (s : Store)
    (p : UpsertParams) : Option (Store × UpsertResult) :=
  if p.projectId ∈ s.projects then
    match validate p.type p.payload with
    | none => none
    | some v =>
      match findArtifact s p.projectId p.type p.name with
      | none =>
        let aid := s.nextArtifactId
        let rid := s.nextRevisionId
        let art : Artifact :=
          ⟨aid, p.projectId, p.type, p.name, p.schemaVersion, none⟩
        let rev : ArtifactRevision := ⟨rid, aid, 1, v⟩
        let s' : Store :=
          { s with
            artifacts := (s.artifacts ++ [art]).map fun a =>
              if a.id == aid then { a with currentRevisionId := some rid } else a
            revisions := s.revisions ++ [rev]
            nextArtifactId := aid + 1
            nextRevisionId := rid + 1 }
        some (s', ⟨aid, p.type, p.name, p.schemaVersion, 1⟩)
      | some a =>
        let lastRev := maxRevNum s a.id
        let n := lastRev + 1
        let rid := s.nextRevisionId
        let rev : ArtifactRevision := ⟨rid, a.id, n, v⟩
        let s' : Store :=
          { s with
            artifacts := s.artifacts.map fun x =>
              if x.id == a.id then
                { x with schemaVersion := p.schemaVersion,
                         currentRevisionId := some rid }
              else x
            revisions := s.revisions ++ [rev]
            nextRevisionId := rid + 1 }
        some (s', ⟨a.id, a.type, a.name, p.schemaVersion, n⟩)
  else none

/-- `getArtifactLatest` (part_003 lines 103–136): the payload behind the
current pointer of the triple's artifact. -/
def getArtifactLatest (s : Store) (pid : Nat) (ty : ArtifactType) (nm : Nat) :
    Option LatestResult :=
  if pid ∈ s.projects then
    match findArtifact s pid ty nm with
    | none => none
    | some a =>
      match a.currentRevisionId with
      | none => none
      | some rid =>
        match s.revisions.find? (fun r => r.id == rid) with
        | none => none
        | some r =>
          some ⟨a.id, a.type, a.name, a.schemaVersion, r.revisionNumber,
            r.payload⟩
  else none

/-- Comparison used to model `orderBy: { revisionNumber: "asc" }`. -/
def revLe (x y : ArtifactRevision) : Prop := x.revisionNumber ≤ y.revisionNumber

instance : DecidableRel revLe := fun x y => Nat.decLe _ _

instance : IsTotal ArtifactRevision revLe := ⟨fun x y => Nat.le_total _ _⟩

instance : IsTrans ArtifactRevision revLe := ⟨fun _ _ _ => Nat.le_trans⟩

/-- `listArtifactRevisions` (part_003 lines 156–184): the triple's revision
numbers in ascending order (the `created_at` component of the source's result
rows is not modelled). -/
def listArtifactRevisions (s : Store) (pid : Nat) (ty : ArtifactType)
    (nm : Nat) : Option (List Nat) :=
  if pid ∈ s.projects then
    match findArtifact s pid ty nm with
    | none => none
    | some a =>
      some (((s.revisions.filter fun r => r.artifactId == a.id).insertionSort
        revLe).map fun r => r.revisionNumber)
  else none

/-- Run a list of upsert calls in order; a failed call leaves the store
unchanged (every thrown error aborts atomically, part_003 §5/§7). -/
def runCalls (validate : ArtifactType → Nat → Option Nat) (s : Store)
    (calls : List UpsertParams) : Store :=
  calls.foldl
    (fun st c => match upsertArtifact validate st c with
      | some (st', _) => st'
      | none => st) s

/-- The number of calls in the list that target the triple and succeed when
run sequentially from `s`. -/
def successCount (validate : ArtifactType → Nat → Option Nat) (s : Store)
    (calls : List UpsertParams) (pid : Nat) (ty : ArtifactType) (nm : Nat) :
    Nat :=
  match calls with
  | [] => 0
  | c :: rest =>
    match upsertArtifact validate s c with
    | some (s', _) =>
      (if c.projectId = pid ∧ c.type = ty ∧ c.name = nm then 1 else 0) +
        successCount validate s' rest pid ty nm
    | none => successCount validate s rest pid ty nm

/-- Store wellformedness: ids are below the fresh-id counters and unique,
revision rows reference allocated artifact ids, and the composite unique
constraint on `(projectId, type, name)` holds. -/
structure StoreWF (s : Store) : Prop where
  artIdLt : ∀ a ∈ s.artifacts, a.id < s.nextArtifactId
  revIdLt : ∀ r ∈ s.revisions, r.id < s.nextRevisionId
  revArtIdLt : ∀ r ∈ s.revisions, r.artifactId < s.nextArtifactId
  artNodup : (s.artifacts.map (fun a => a.id)).Nodup
  revNodup : (s.revisions.map (fun r => r.id)).Nodup
  tripleUnique : ∀ a ∈ s.artifacts, ∀ b ∈ s.artifacts,
    a.projectId = b.projectId → a.type = b.type → a.name = b.name → a = b

/-- The revision rows of one artifact. -/
def revisionsOf (s : Store) (aid : Nat) : List ArtifactRevision :=
  s.revisions.filter fun r => r.artifactId == aid

/-- The revision numbers of one artifact, ascending (the list
`listArtifactRevisions` reports). -/
def sortedRevNums (s : Store) (aid : Nat) : List Nat :=
  ((revisionsOf s aid).insertionSort revLe).map fun r => r.revisionNumber

/-- Run invariant for one triple after `n` successful upserts to it:
for `n = 0` the triple has no artifact; for `n ≥ 1` the project exists, the
triple's artifact holds exactly revision numbers `1..n`, its greatest
revision number is `n`, and the current pointer rests on a revision row of
the artifact numbered `n`. -/
def TripleInv (s : Store) (pid : Nat) (ty : ArtifactType) (nm : Nat) :
    Nat → Prop
  | 0 => findArtifact s pid ty nm = none
  | Nat.succ n =>
    pid ∈ s.projects ∧
    ∃ a, findArtifact s pid ty nm = some a ∧
      sortedRevNums s a.id = List.range' 1 (n + 1) ∧
      maxRevNum s a.id = n + 1 ∧
      ∃ r ∈ s.revisions, a.currentRevisionId = some r.id ∧
        r.artifactId = a.id ∧ r.revisionNumber = n + 1

/-! ## Concurrent semantics of `upsertArtifact` (for the store-isolation claim)

The source performs its reads (`ensureProject`, the payload validation and the
`artifact.findUnique` with its `revisions … take 1` include) OUTSIDE the
`prisma.$transaction`, then runs the write transaction.  We model one
in-flight call as a two-step machine: an atomic read step and an atomic
all-or-nothing transaction step.  The transaction aborts (and the call fails,
part_003 has no retry) when a write would violate a unique constraint of the
schema: `@@unique([projectId, type, name])` on `artifact` (witnessed by the
`projectId_type_name` composite key used in `findUnique`) or
`@@unique([artifactId, revisionNumber])` on `artifactRevision` (witnessed by
the `artifactId_revisionNumber` composite key at part_003 line 207). -/

/-- Phase of one in-flight `upsertArtifact` call: `start` before any store
access; `readDone v found` after the non-transactional reads, carrying the
validated payload `v` and the read result (`none` = no artifact for the
triple, `some (a, lastRev)` = the artifact and its greatest revision number at
read time); `finished ok` after the call returned (`ok = false`: it threw). -/
inductive UpPhase where
  | start
  | readDone (v : Nat) (found : Option (Artifact × Nat))
  | finished (ok : Bool)
deriving DecidableEq, Repr

/-- One in-flight `upsertArtifact` call. -/
structure UpCall where
  params : UpsertParams
  phase : UpPhase
deriving DecidableEq, Repr

/-- One atomic step of an in-flight call against the shared store. -/
def upStep (validate : ArtifactType → Nat → Option Nat) (s : Store)
    (c : UpCall) : Store × UpCall :=
  match c.phase with
  | .start =>
    if c.params.projectId ∈ s.projects then
      match validate c.params.type c.params.payload with
      | some v =>
        match findArtifact s c.params.projectId c.params.type c.params.name with
        | none => (s, { c with phase := .readDone v none })
        | some a => (s, { c with phase := .readDone v (some (a, maxRevNum s a.id)) })
      | none => (s, { c with phase := .finished false })
    else (s, { c with phase := .finished false })
  | .readDone v none =>
    if (findArtifact s c.params.projectId c.params.type c.params.name).isSome
    then
      (s, { c with phase := .finished false })
    else
      let aid := s.nextArtifactId
      let rid := s.nextRevisionId
      let art : Artifact :=
        ⟨aid, c.params.projectId, c.params.type, c.params.name,
          c.params.schemaVersion, none⟩
      let rev : ArtifactRevision := ⟨rid, aid, 1, v⟩
      let s' : Store :=
        { s with
          artifacts := (s.artifacts ++ [art]).map fun a =>
            if a.id == aid then { a with currentRevisionId := some rid } else a
          revisions := s.revisions ++ [rev]
          nextArtifactId := aid + 1
          nextRevisionId := rid + 1 }
      (s', { c with phase := .finished true })
  | .readDone v (some (a, lastRev)) =>
    let n := lastRev + 1
    if s.revisions.any (fun r => r.artifactId == a.id && r.revisionNumber == n)
    then
      (s, { c with phase := .finished false })
    else
      let rid := s.nextRevisionId
      let rev : ArtifactRevision := ⟨rid, a.id, n, v⟩
      let s' : Store :=
        { s with
          artifacts := s.artifacts.map fun x =>
            if x.id == a.id then
              { x with schemaVersion := c.params.schemaVersion,
                       currentRevisionId := some rid }
            else x
          revisions := s.revisions ++ [rev]
          nextRevisionId := rid + 1 }
      (s', { c with phase := .finished true })
  | .finished _ => (s, c)

/-- Run two concurrent calls under a schedule: `true` steps call `A`,
`false` steps call `B`. -/
def runSched (validate : ArtifactType → Nat → Option Nat) :
    Store → UpCall → UpCall → List Bool → Store × UpCall × UpCall
  | s, a, b, [] => (s, a, b)
  | s, a, b, true :: rest =>
    let (s', a') := upStep validate s a
    runSched validate s' a' b rest
  | s, a, b, false :: rest =>
    let (s', b') := upStep validate s b
    runSched validate s' a b' rest

/-- All interleavings of two two-step calls. -/
def twoCallSchedules : List (List Bool) :=
  [[true, true, false, false], [true, false, true, false],
   [true, false, false, true], [false, true, true, false],
   [false, true, false, true], [false, false, true, true]]

/-- The revision numbers the store holds for artifact(s) of a triple, in
ascending order (what `listArtifactRevisions` reports after the dust
settles). -/
def tripleRevNums (s : Store) (pid : Nat) (ty : ArtifactType) (nm : Nat) :
    List Nat :=
  match findArtifact s pid ty nm with
  | none => []
  | some a =>
    ((s.revisions.filter fun r => r.artifactId == a.id).insertionSort
      revLe).map fun r => r.revisionNumber

/-- Whether a finished call reported success. -/
def UpCall.ok (c : UpCall) : Bool :=
  match c.phase with
  | .finished true => true
  | _ => false

/-! ## Edit Applier (src/src/deai.ts, `applySafeDeAiOps`) -/

/-- A half-open span `[start, end)` into a text plus the cached snippet.  The
source field `end` is called `endPos` here (`end` is a Lean keyword). -/
structure TextSpan where
  start : Nat
  endPos : Nat
  snippet : JStr
deriving DecidableEq, Repr

/-- The two edit-op kinds of `DeAiEditOp`. -/
inductive DeAiOpKind where
  | delete
  | replace
deriving DecidableEq, Repr

/-- A proposed edit operation; `replacement` is `none` for the source's
`null`. -/
structure DeAiEditOp where
  op : DeAiOpKind
  span : TextSpan
  replacement : Option JStr
  note : JStr
deriving DecidableEq, Repr

/-- The comparator `(a, b) => b.span.start - a.span.start` of
`applySafeDeAiOps`: descending by span start. -/
def opGe (a b : DeAiEditOp) : Prop := b.span.start ≤ a.span.start

instance : DecidableRel opGe := fun _ _ => Nat.decLe _ _

instance : IsTotal DeAiEditOp opGe := ⟨fun _ _ => Nat.le_total _ _⟩

instance : IsTrans DeAiEditOp opGe := ⟨fun _ _ _ hab hbc => Nat.le_trans hbc hab⟩

/-- `safe.slice().sort((a, b) => b.span.start - a.span.start)`: a stable sort
descending by span start (`Array.prototype.sort` is stable; insertion sort
with `opGe` places earlier input elements first among ties, hence is the same
stable result). -/
def sortOpsDesc (ops : List DeAiEditOp) : List DeAiEditOp :=
  ops.insertionSort opGe

/-- The loop body of `applySafeDeAiOps` for one op (the text part only):
delete removes `[start, end)`; replace with a string substitutes it for
`[start, end)`; a replace whose replacement is not a string leaves the text
unchanged.  `out.slice(0, s)` is `take s` and `out.slice(e)` is `drop e` for
the nonnegative indices in play. -/
def applyOne (out : JStr) (op : DeAiEditOp) : JStr :=
  match op.op with
  | .delete => out.take op.span.start ++ out.drop op.span.endPos
  | .replace =>
    match op.replacement with
    | some repl => out.take op.span.start ++ repl ++ out.drop op.span.endPos
    | none => out

/-- Result of `applySafeDeAiOps`. -/
structure ApplyResult where
  text : JStr
  applied : List DeAiEditOp
deriving DecidableEq, Repr

/-- The `for (const op of sorted)` loop of `applySafeDeAiOps`: applies each
delete, applies each replace whose replacement is a string, silently skips
the rest, collecting the applied ops in application order. -/
def applyLoop : JStr → List DeAiEditOp → ApplyResult
  | out, [] => ⟨out, []⟩
  | out, op :: rest =>
    match op.op with
    | .delete =>
      let r := applyLoop (applyOne out op) rest
      ⟨r.text, op :: r.applied⟩
    | .replace =>
      match op.replacement with
      | some _ =>
        let r := applyLoop (applyOne out op) rest
        ⟨r.text, op :: r.applied⟩
      | none => applyLoop out rest

/-- `applySafeDeAiOps` (deai.ts lines 332–357): keep the first 120 ops, sort
them by span start descending, then apply from end to start. -/
def applySafeDeAiOps (text : JStr) (ops : List DeAiEditOp) : ApplyResult :=
  applyLoop text (sortOpsDesc (ops.take 120))

/-- An op the loop actually applies (a delete, or a replace whose
replacement is a string). -/
def isAppliedOp (op : DeAiEditOp) : Bool :=
  match op.op with
  | .delete => true
  | .replace => op.replacement.isSome

/-- Two ops whose spans do not overlap (as half-open intervals). -/
def spansDisjoint (a b : DeAiEditOp) : Prop :=
  a.span.endPos ≤ b.span.start ∨ b.span.endPos ≤ a.span.start

instance : DecidableRel spansDisjoint := fun _ _ =>
  inferInstanceAs (Decidable (_ ∨ _))

/-! ## A small ECMAScript regex interpreter

The de-AI engine and the prose analyzer drive everything through JS regexes
and `String` searches.  We embed exactly the constructs their fixed patterns
use: literals, one-character classes, sequencing, ordered alternation, greedy
`+` / `*` / bounded `{0,n}` repetition, the `\b` assertion and one-character
lookbehind/lookahead.  The backtracking matcher returns every candidate match
length in JS preference order (leftmost alternative first, greedy repetition
longest first); the head of that list is the length the JS engine reports. -/

/-- JS `\w` (no `u` flag): `[A-Za-z0-9_]`. -/
def isWordChar (c : Char) : Bool :=
  (Nat.ble 65 c.toNat && Nat.ble c.toNat 90) ||
  (Nat.ble 97 c.toNat && Nat.ble c.toNat 122) ||
  (Nat.ble 48 c.toNat && Nat.ble c.toNat 57) || c.toNat == 95

/-- JS `\s`: WhiteSpace plus LineTerminator (ECMA-262). -/
def isJsWs (c : Char) : Bool :=
  c.toNat == 32 || c.toNat == 9 || c.toNat == 10 || c.toNat == 11 ||
  c.toNat == 12 || c.toNat == 13 || c.toNat == 0xa0 || c.toNat == 0x1680 ||
  (Nat.ble 0x2000 c.toNat && Nat.ble c.toNat 0x200a) || c.toNat == 0x2028 ||
  c.toNat == 0x2029 || c.toNat == 0x202f || c.toNat == 0x205f ||
  c.toNat == 0x3000 || c.toNat == 0xfeff

/-- Case folding for the `i` flag: ECMAScript canonicalisation restricted to
the characters this development touches (ASCII letters fold; every non-ASCII
character occurring in the patterns and theorems canonicalises to itself and
matches no ASCII pattern character, as in ECMAScript, where a non-ASCII
character never canonicalises to an ASCII one). -/
def foldCase (c : Char) : Char :=
  if 65 ≤ c.toNat ∧ c.toNat ≤ 90 then Char.ofNat (c.toNat + 32) else c

/-- Regex AST for the source's patterns. -/
inductive RE : Type where
  | eps : RE
  | lit : JStr → RE
  | cls : (Char → Bool) → RE
  | seq : RE → RE → RE
  | alt : RE → RE → RE
  | star1 : RE → RE
  | wordB : RE
  | prevCls : (Char → Bool) → RE
  | nextCls : (Char → Bool) → RE

/-- Greedy `*`: one-or-more first, then empty. -/
def reStar (r : RE) : RE := .alt (.star1 r) .eps

/-- Greedy bounded `{0,n}`. -/
def reRepMax : Nat → RE → RE
  | 0, _ => .eps
  | n + 1, r => .alt (.seq r (reRepMax n r)) .eps

/-- Ordered alternation of a list of alternatives. -/
def reAlts : List RE → RE
  | [] => .cls fun _ => false
  | [r] => r
  | r :: r2 :: rs => .alt r (reAlts (r2 :: rs))

/-- Ordered alternation of literal words. -/
def reWords (ws : List String) : RE := reAlts (ws.map fun w => .lit (jstr w))

/-- The code unit at an index. -/
def charAt (t : JStr) (p : Nat) : Option Char := (t.drop p).head?

/-- Class test under optional case folding. -/
def testCls (ci : Bool) (f : Char → Bool) (c : Char) : Bool :=
  f (if ci then foldCase c else c)

/-- Literal match at a position, case-folded if `ci`. -/
def litMatch (ci : Bool) (t : JStr) (p : Nat) (w : JStr) : Bool :=
  (((t.drop p).take w.length).map (fun c => if ci then foldCase c else c)
    == w.map fun c => if ci then foldCase c else c) &&
  Nat.ble (p + w.length) t.length

/-- Is the code unit at an index a word character (out of range: no)? -/
def wordAt (t : JStr) (p : Nat) : Bool :=
  match charAt t p with
  | some c => isWordChar c
  | none => false

/-- `\b`: word-ness changes between the previous and current position. -/
def atWordBoundary (t : JStr) (p : Nat) : Bool :=
  match p with
  | 0 => wordAt t 0
  | q + 1 => wordAt t q != wordAt t (q + 1)

/-- One fuel level of the matcher: structural recursion over the regex.
`recur` resolves the continuation of an unbounded `+` one fuel level lower.
The result lists every candidate match length in JS backtracking preference
order (leftmost alternative first, greedy repetition longest first). -/
def mtchGo (ci : Bool) (t : JStr) (recur : RE → Nat → List Nat) :
    RE → Nat → List Nat
  | .eps, _ => [0]
  | .lit w, p => if litMatch ci t p w then [w.length] else []
  | .cls f, p =>
    match charAt t p with
    | some c => if testCls ci f c then [1] else []
    | none => []
  | .wordB, p => if atWordBoundary t p then [0] else []
  | .prevCls f, p =>
    match p with
    | 0 => []
    | q + 1 =>
      match charAt t q with
      | some c => if testCls ci f c then [0] else []
      | none => []
  | .nextCls f, p =>
    match charAt t p with
    | some c => if testCls ci f c then [0] else []
    | none => []
  | .seq a b, p =>
    (mtchGo ci t recur a p).flatMap fun la =>
      (mtchGo ci t recur b (p + la)).map fun lb => la + lb
  | .alt a b, p => mtchGo ci t recur a p ++ mtchGo ci t recur b p
  | .star1 r, p =>
    (mtchGo ci t recur r p).flatMap fun l1 =>
      if l1 = 0 then [0]
      else ((recur (.star1 r) (p + l1)).map fun l2 => l1 + l2) ++ [l1]

/-- All candidate match lengths of a regex at a position.  `fuel` bounds the
nesting of unbounded `+` continuations; since every `star1` body in the
source's patterns consumes at least one unit, `t.length + 1` fuel is always
sufficient. -/
def mtch (ci : Bool) (t : JStr) : Nat → RE → Nat → List Nat
  | 0, re, p => mtchGo ci t (fun _ _ => []) re p
  | fuel + 1, re, p => mtchGo ci t (mtch ci t fuel) re p

/-- The match length the JS engine reports at a position (preferred path). -/
def matchLenAt (ci : Bool) (re : RE) (t : JStr) (p : Nat) : Option Nat :=
  (mtch ci t (t.length + 1) re p).head?

/-- Scan for the first position at or after `p` holding a match
(`RegExp.exec` from `lastIndex = p`). -/
def firstMatchFromAux (ci : Bool) (re : RE) (t : JStr) :
    Nat → Nat → Option (Nat × Nat)
  | _, 0 => none
  | p, fuel + 1 =>
    if p ≤ t.length then
      match matchLenAt ci re t p with
      | some l => some (p, l)
      | none => firstMatchFromAux ci re t (p + 1) fuel
    else none

/-- First match at or after `p`: position and length. -/
def firstMatchFrom (ci : Bool) (re : RE) (t : JStr) (p : Nat) :
    Option (Nat × Nat) :=
  firstMatchFromAux ci re t p (t.length + 1 - p)

/-- `String.prototype.matchAll` (equivalently `match` with `g`): successive
leftmost matches, resuming after each match end (one past an empty match). -/
def matchAllAux (ci : Bool) (re : RE) (t : JStr) :
    Nat → Nat → List (Nat × Nat)
  | _, 0 => []
  | p, fuel + 1 =>
    match firstMatchFrom ci re t p with
    | none => []
    | some (q, l) =>
      (q, l) :: matchAllAux ci re t (if l = 0 then q + 1 else q + l) fuel

/-- All matches of a regex over a text. -/
def jsMatchAll (ci : Bool) (re : RE) (t : JStr) : List (Nat × Nat) :=
  matchAllAux ci re t 0 (t.length + 2)

/-- `clampSnippet` (deai.ts lines 95–99): the substring at the clamped
offsets (`Math.max(0, start)` is `start` itself for `Nat` offsets). -/
def clampSnippet (t : JStr) (s e : Nat) : JStr := jsSlice t s (min t.length e)

/-- `spansForRegex` loop (deai.ts lines 101–117): record each match as a
span with its snippet, stopping at the cap. -/
def spansForRegexAux (ci : Bool) (re : RE) (t : JStr) :
    Nat → Nat → List TextSpan
  | _, 0 => []
  | p, rem + 1 =>
    match firstMatchFrom ci re t p with
    | none => []
    | some (q, l) =>
      ⟨q, q + l, clampSnippet t q (q + l)⟩ ::
        spansForRegexAux ci re t (if l = 0 then q + 1 else q + l) rem

/-- `spansForRegex` (deai.ts lines 101–117). -/
def spansForRegex (ci : Bool) (re : RE) (t : JStr) (maxMatches : Nat) :
    List TextSpan :=
  spansForRegexAux ci re t 0 maxMatches

/-- ASCII apostrophe. -/
def apos : Char := Char.ofNat 39

/-- RIGHT SINGLE QUOTATION MARK (U+2019), the typographic apostrophe the
source patterns contain. -/
def rapos : Char := Char.ofNat 0x2019

/-- `String.prototype.toLowerCase` per code unit.  Agrees with ECMAScript
full case conversion on every character of this development: ASCII letters
fold to lowercase, LATIN CAPITAL LETTER I WITH DOT ABOVE (U+0130) expands to
the two units `i` + COMBINING DOT ABOVE (U+0307) and KELVIN SIGN (U+212A)
maps to `k` (Unicode case mappings); the remaining characters appearing in
the patterns and theorems are fixed points. -/
def jsLowerChar (c : Char) : List Char :=
  if 65 ≤ c.toNat ∧ c.toNat ≤ 90 then [Char.ofNat (c.toNat + 32)]
  else if c.toNat = 0x130 then [Char.ofNat 0x69, Char.ofNat 0x307]
  else if c.toNat = 0x212a then [Char.ofNat 0x6b]
  else [c]

/-- `String.prototype.toLowerCase`. -/
def jsToLower (t : JStr) : JStr := t.flatMap jsLowerChar

/-- `String.prototype.indexOf(needle, start)` scan: the least position at or
after `start` where `needle` occurs in full. -/
def jsIndexOfAux (hay needle : JStr) : Nat → Nat → Option Nat
  | _, 0 => none
  | p, fuel + 1 =>
    if p + needle.length ≤ hay.length then
      if (hay.drop p).take needle.length == needle then some p
      else jsIndexOfAux hay needle (p + 1) fuel
    else none

/-- `hay.indexOf(needle, start)` (`none` for `-1`). -/
def jsIndexOfFrom (hay needle : JStr) (start : Nat) : Option Nat :=
  jsIndexOfAux hay needle start (hay.length + 1 - start)

/-- `String.prototype.includes`. -/
def jsIncludes (hay needle : JStr) : Bool := (jsIndexOfFrom hay needle 0).isSome

/-- `phraseSpans` loop (deai.ts lines 119–138): lowercase haystack and
needle, then record each `indexOf` hit, resuming at `found + phrase.length`,
up to the cap. -/
def phraseSpansAux (t hay needle : JStr) (phraseLen : Nat) :
    Nat → Nat → List TextSpan
  | _, 0 => []
  | idx, rem + 1 =>
    match jsIndexOfFrom hay needle idx with
    | none => []
    | some found =>
      ⟨found, found + phraseLen, clampSnippet t found (found + phraseLen)⟩ ::
        phraseSpansAux t hay needle phraseLen (found + phraseLen) rem

/-- `phraseSpans` (deai.ts lines 119–138). -/
def phraseSpans (t phrase : JStr) (maxMatches : Nat) : List TextSpan :=
  phraseSpansAux t (jsToLower t) (jsToLower phrase) phrase.length 0 maxMatches

/-! ## The de-AI heuristic engine (src/src/deai.ts) -/

/-- Flag taxonomy of the de-AI engine. -/
inductive DeAiFlagKind where
  | personification
  | vague_language
  | abstract_simile
  | cliche
  | rhetorical_frame
  | filler
deriving DecidableEq, Repr

/-- Flag severities. -/
inductive DeAiSeverity where
  | info
  | warn
  | error
deriving DecidableEq, Repr

/-- A detected pattern occurrence. -/
structure DeAiFlag where
  kind : DeAiFlagKind
  severity : DeAiSeverity
  message : JStr
  spans : List TextSpan
deriving DecidableEq, Repr

/-- `PERSONIFICATION_VERBS` (deai.ts lines 35–57). -/
def PERSONIFICATION_VERBS : List String :=
  ["begged", "pleaded", "whispered", "muttered", "groaned", "sighed",
   "gasped", "moaned", "laughed", "sang", "clung", "gripped", "held",
   "grabbed", "swallowed", "breathed", "breathing", "hung", "pressed"]

/-- `ANTHRO_SOUND_NOUNS` (deai.ts line 59). -/
def ANTHRO_SOUND_NOUNS : List String :=
  ["gasp", "groan", "sigh", "whisper", "mutter", "moan"]

/-- `ANTHRO_SOUND_ADJ` (deai.ts line 60). -/
def ANTHRO_SOUND_ADJ : List String :=
  ["wet", "low", "thin", "sharp", "raw", "soft", "faint", "quiet"]

/-- `VAGUE_WORDS` of deai.ts (lines 62–75); suffixed to distinguish it from
the analyzer's distinct lexicon of the same name. -/
def VAGUE_WORDS_DEAI : List String :=
  ["somehow", "suddenly", "really", "very", "just", "kind of", "sort of",
   "thing", "stuff", "wrong", "strange", "beautiful"]

/-- `BANNED_PHRASES` (deai.ts lines 77–84). -/
def BANNED_PHRASES : List String :=
  ["like a dream", "like a nightmare", "time stood still",
   "in the blink of an eye", "cold as ice", "silence was deafening"]

/-- `ABSTRACT_SIMILE_TARGETS` (deai.ts line 86). -/
def ABSTRACT_SIMILE_TARGETS : List String :=
  ["sin", "evil", "darkness", "the abyss", "death", "fate", "destiny"]

/-- `MORALIZING_TAGLINES` (deai.ts line 89). -/
def MORALIZING_TAGLINES : List String :=
  ["damn you", "save you", "ruin you", "haunt you"]

/-- The filler targets of detector 9 (deai.ts line 302). -/
def FILLER_TARGETS : List String := ["very", "really", "just", "somehow"]

/-- `[a-z]` (with the `i` flag it also takes folded uppercase). -/
def lowAlpha (c : Char) : Bool := Nat.ble 97 c.toNat && Nat.ble c.toNat 122

/-- `[\w-]`. -/
def wordHyphen (c : Char) : Bool := isWordChar c || c.toNat == 45

/-- `[^—\n]` (EM DASH U+2014, LINE FEED). -/
def notDashNl (c : Char) : Bool := !(c.toNat == 0x2014 || c.toNat == 10)

/-- The flourish pattern (deai.ts line 150):
`\b(?:didn’t|didn't)\s+just\b[^—\n]{0,120}—\s*it\b`, case-insensitive. -/
def flourishRe : RE :=
  .seq .wordB (.seq
    (.alt (.lit (jstr "didn" ++ [rapos] ++ jstr "t"))
      (.lit (jstr "didn" ++ [apos] ++ jstr "t")))
    (.seq (.star1 (.cls isJsWs)) (.seq (.lit (jstr "just")) (.seq .wordB
      (.seq (reRepMax 120 (.cls notDashNl)) (.seq (.lit (jstr "—"))
        (.seq (reStar (.cls isJsWs))
          (.seq (.lit (jstr "it")) .wordB))))))))

/-- The personification pattern (deai.ts lines 163–168):
`\b(?:the|a|an)\s+[a-z][\w-]*(?:\s+[a-z][\w-]*){0,2}\s+(?:…verbs…)\b`. -/
def personificationRe : RE :=
  .seq .wordB (.seq (reWords ["the", "a", "an"])
    (.seq (.star1 (.cls isJsWs))
      (.seq (.cls lowAlpha) (.seq (reStar (.cls wordHyphen))
        (.seq (reRepMax 2 (.seq (.star1 (.cls isJsWs))
            (.seq (.cls lowAlpha) (reStar (.cls wordHyphen)))))
          (.seq (.star1 (.cls isJsWs))
            (.seq (reWords PERSONIFICATION_VERBS) .wordB)))))))

/-- The anthropomorphic sound-noun pattern (deai.ts lines 181–186):
`\b(adj)\s+(noun)\b|\b(?:a|an)\s+(noun)\b`. -/
def soundNounRe : RE :=
  .alt
    (.seq .wordB (.seq (reWords ANTHRO_SOUND_ADJ)
      (.seq (.star1 (.cls isJsWs)) (.seq (reWords ANTHRO_SOUND_NOUNS)
        .wordB))))
    (.seq .wordB (.seq (reWords ["a", "an"])
      (.seq (.star1 (.cls isJsWs)) (.seq (reWords ANTHRO_SOUND_NOUNS)
        .wordB))))

/-- `\bw\b` for one lexicon word (detectors 5 and 9). -/
def wordRe (w : JStr) : RE := .seq .wordB (.seq (.lit w) .wordB)

/-- The abstract-simile pattern (deai.ts lines 255–258):
`\blike\s+(?:…targets…)\b`. -/
def abstractSimileRe : RE :=
  .seq .wordB (.seq (.lit (jstr "like")) (.seq (.star1 (.cls isJsWs))
    (.seq (reWords ABSTRACT_SIMILE_TARGETS) .wordB)))

/-- The moralizing-tagline pattern (deai.ts lines 271–274):
`\benough\s+to\s+(?:…taglines…)\b`. -/
def moralizingRe : RE :=
  .seq .wordB (.seq (.lit (jstr "enough")) (.seq (.star1 (.cls isJsWs))
    (.seq (.lit (jstr "to")) (.seq (.star1 (.cls isJsWs))
      (.seq (reWords MORALIZING_TAGLINES) .wordB)))))

/-- `/gasp|groan|sigh|mutter|moan/gi` of the sound-noun replacement
(deai.ts line 211). -/
def soundNounAltRe : RE := reWords ["gasp", "groan", "sigh", "mutter", "moan"]

/-- `String.prototype.replace` with a global regex and a plain replacement:
splice the replacement over every match. -/
def spliceAll (t repl : JStr) : Nat → List (Nat × Nat) → JStr
  | prev, [] => t.drop prev
  | prev, (p, l) :: rest => jsSlice t prev p ++ repl ++ spliceAll t repl (p + l) rest

/-- `t.replace(re, repl)` for a global regex and `$`-free replacement. -/
def jsReplaceAllRe (ci : Bool) (re : RE) (t repl : JStr) : JStr :=
  spliceAll t repl 0 (jsMatchAll ci re t)

/-- Message of the rhetorical-flourish flag. -/
def msgFlourish : JStr :=
  jstr "Rhetorical flourish detected (\"didn" ++ [rapos] ++
    jstr "t just…—it…\"). Convert to literal, direct statements."

/-- Message of the personification flag. -/
def msgPersonification : JStr :=
  jstr "Personification detected. Replace with literal physical behavior (what actually happens) rather than giving objects human intent or speech."

/-- Message of the anthropomorphic sound-noun flag. -/
def msgSoundNoun : JStr :=
  jstr "Anthropomorphic sound noun detected (e.g., \"gasp\", \"whisper\"). Replace with neutral sound terms (\"sound\", \"noise\", \"note\") unless the subject is a person speaking/breathing."

/-- Note of the whisper replacement op. -/
def noteWhisper : JStr :=
  jstr "Replace anthropomorphic noun \"whisper\" with \"trace\""

/-- Note of the generic sound-noun replacement op. -/
def noteSound : JStr :=
  jstr "Replace anthropomorphic sound noun with neutral " ++ [apos] ++
    jstr "sound" ++ [apos]

/-- Message of the whisper-of flag. -/
def msgWhisperOf : JStr :=
  jstr "Phrase \"whisper of\" detected. This often reads as AI-style abstraction. Prefer concrete quantity words (trace, hint, smear) tied to a physical source."

/-- Note of the whisper-of replacement op. -/
def noteWhisperOf : JStr := jstr "Replace \"whisper of\" with \"trace of\""

/-- Message of the vague-language flag. -/
def msgVague : JStr :=
  jstr "Vague language detected. Replace with specific nouns/verbs or remove if it adds no meaning."

/-- Message of the abstract-simile flag. -/
def msgAbstract : JStr :=
  jstr "Abstract simile detected. Replace with a concrete comparison anchored to the POV character" ++ [rapos] ++
    jstr "s world (physical, practical, specific)."

/-- Message of the moralizing-tagline flag. -/
def msgMoralizing : JStr :=
  jstr "Moralizing tagline detected (e.g., \"enough to damn you\"). Replace with literal consequence (what it does to the body, the plan, or the risk)."

/-- Message of the cliché flag. -/
def msgCliche : JStr :=
  jstr "Cliché phrase detected. Remove or replace with specific, original detail."

/-- Note of the cliché delete op. -/
def noteCliche : JStr := jstr "Remove cliché phrase"

/-- Message of the filler flag. -/
def msgFiller : JStr :=
  jstr "Filler detected. Remove unless it changes literal meaning."

/-- Note of the filler delete op. -/
def noteFiller : JStr := jstr "Remove filler word"

/-- The replacement op detector 3 emits for one sound-noun span
(deai.ts lines 198–215). -/
def mkSoundOp (sp : TextSpan) : DeAiEditOp :=
  if jsIncludes (jsToLower sp.snippet) (jstr "whisper") then
    ⟨.replace, sp,
      some (jsReplaceAllRe true (.lit (jstr "whisper")) sp.snippet
        (jstr "trace")), noteWhisper⟩
  else
    ⟨.replace, sp,
      some (jsReplaceAllRe true soundNounAltRe sp.snippet (jstr "sound")),
      noteSound⟩

/-- The replacement op detector 4 emits for one whisper-of span
(deai.ts lines 229–236). -/
def mkWhisperOfOp (sp : TextSpan) : DeAiEditOp :=
  ⟨.replace, sp,
    some (jsReplaceAllRe true (.lit (jstr "whisper of")) sp.snippet
      (jstr "trace of")), noteWhisperOf⟩

/-- The per-kind span totals (deai.ts lines 320–327). -/
structure DeAiCounts where
  personification : Nat
  vague_language : Nat
  abstract_simile : Nat
  cliche : Nat
  rhetorical_frame : Nat
  filler : Nat
deriving DecidableEq, Repr

/-- Result of `generateDeAiReport`. -/
structure DeAiReport where
  schema_version : Nat
  counts : DeAiCounts
  flags : List DeAiFlag
  suggested_ops : List DeAiEditOp
deriving DecidableEq, Repr

/-- `generateDeAiReport` (deai.ts lines 140–330): the fixed ordered battery
of detectors, each contributing a flag when it matched and (for detectors 3,
4, 8, 9) its conservative ops, with the source's slicing caps. -/
def generateDeAiReport (t : JStr) : DeAiReport :=
  let flourishSpans := spansForRegex true flourishRe t 60
  let personSpans := spansForRegex true personificationRe t 60
  let soundSpans := spansForRegex true soundNounRe t 60
  let whisperOfSpans := phraseSpans t (jstr "whisper of") 40
  let vagueSpans :=
    (VAGUE_WORDS_DEAI.map fun w => spansForRegex true (wordRe (jstr w)) t 60).flatten
  let absSpans := spansForRegex true abstractSimileRe t 60
  let moralSpans := spansForRegex true moralizingRe t 60
  let clicheSpans :=
    (BANNED_PHRASES.map fun p => phraseSpans t (jstr p) 40).flatten
  let fillerSpans :=
    (FILLER_TARGETS.map fun w => spansForRegex true (wordRe (jstr w)) t 60).flatten
  let flags : List DeAiFlag :=
    (if flourishSpans ≠ [] then
      [⟨.rhetorical_frame, .warn, msgFlourish, flourishSpans⟩] else []) ++
    (if personSpans ≠ [] then
      [⟨.personification, .warn, msgPersonification, personSpans⟩] else []) ++
    (if soundSpans ≠ [] then
      [⟨.personification, .warn, msgSoundNoun, soundSpans⟩] else []) ++
    (if whisperOfSpans ≠ [] then
      [⟨.personification, .warn, msgWhisperOf, whisperOfSpans⟩] else []) ++
    (if vagueSpans ≠ [] then
      [⟨.vague_language, .warn, msgVague, vagueSpans.take 80⟩] else []) ++
    (if absSpans ≠ [] then
      [⟨.abstract_simile, .warn, msgAbstract, absSpans⟩] else []) ++
    (if moralSpans ≠ [] then
      [⟨.abstract_simile, .warn, msgMoralizing, moralSpans⟩] else []) ++
    (if clicheSpans ≠ [] then
      [⟨.cliche, .error, msgCliche, clicheSpans⟩] else []) ++
    (if fillerSpans ≠ [] then
      [⟨.filler, .info, msgFiller, fillerSpans.take 80⟩] else [])
  let suggested_ops : List DeAiEditOp :=
    (if soundSpans ≠ [] then (soundSpans.take 25).map mkSoundOp else []) ++
    (if whisperOfSpans ≠ [] then
      (whisperOfSpans.take 20).map mkWhisperOfOp else []) ++
    (if clicheSpans ≠ [] then
      (clicheSpans.take 20).map fun sp =>
        ⟨.delete, sp, none, noteCliche⟩ else []) ++
    (if fillerSpans ≠ [] then
      (fillerSpans.take 40).map fun sp =>
        ⟨.delete, sp, none, noteFiller⟩ else [])
  let counts : DeAiCounts :=
    ⟨personSpans.length + soundSpans.length + whisperOfSpans.length,
      vagueSpans.length, absSpans.length + moralSpans.length,
      clicheSpans.length, flourishSpans.length, fillerSpans.length⟩
  ⟨1, counts, flags, suggested_ops⟩

/-! ## The prose analyzer (src/unnamed/part_004, `prose_diagnostics.ts`) -/

/-- `VAGUE_WORDS` of the analyzer (part_004 lines 1–15); distinct from the
de-AI engine's lexicon of the same name. -/
def VAGUE_WORDS_PROSE : List String :=
  ["somehow", "something", "someone", "stuff", "things", "maybe", "perhaps",
   "sort of", "kind of", "a bit", "a little", "very", "really"]

/-- `FILLER_PHRASES` (part_004 lines 17–26). -/
def FILLER_PHRASES : List JStr :=
  [jstr "small breath", jstr "let out a breath",
   jstr "breath he didn" ++ [apos] ++ jstr "t know he was holding",
   jstr "eyes widened", jstr "heart pounded",
   jstr "couldn" ++ [apos] ++ jstr "t help but",
   jstr "for a moment", jstr "in that moment"]

/-- `countOccurrences` (part_004 lines 28–33): the number of matches of the
escaped needle as a global case-insensitive regex — i.e. of leftmost
non-overlapping case-insensitive occurrences; 0 for the empty needle. -/
def countOccurrences (haystack needle : JStr) : Nat :=
  if needle = [] then 0
  else (jsMatchAll true (.lit needle) haystack).length

/-- `text.replace(/\r\n/g, "\n")`. -/
def replaceCRLF : JStr → JStr
  | [] => []
  | '\r' :: '\n' :: rest => '\n' :: replaceCRLF rest
  | c :: rest => c :: replaceCRLF rest

/-- `String.prototype.trim` (JS WhiteSpace ∪ LineTerminator). -/
def jsTrim (t : JStr) : JStr :=
  ((t.dropWhile isJsWs).reverse.dropWhile isJsWs).reverse

/-- `[.!?]` of the sentence splitter. -/
def isSentTerm (c : Char) : Bool :=
  c.toNat == 46 || c.toNat == 33 || c.toNat == 63

/-- `[A-Z0-9"“‘]` of the sentence splitter. -/
def isSentStart (c : Char) : Bool :=
  (Nat.ble 65 c.toNat && Nat.ble c.toNat 90) ||
  (Nat.ble 48 c.toNat && Nat.ble c.toNat 57) ||
  c.toNat == 34 || c.toNat == 0x201c || c.toNat == 0x2018

/-- The splitter separator (part_004 line 43):
`(?<=[.!?])\s+(?=[A-Z0-9"“‘])` (no `i` flag). -/
def sentSplitRe : RE :=
  .seq (.prevCls isSentTerm) (.seq (.star1 (.cls isJsWs))
    (.nextCls isSentStart))

/-- `String.prototype.split(regexp)` (no capture groups): the pieces between
successive matches of the separator. -/
def splitPieces (t : JStr) : Nat → List (Nat × Nat) → List JStr
  | prev, [] => [t.drop prev]
  | prev, (p, l) :: rest => jsSlice t prev p :: splitPieces t (p + l) rest

/-- `t.split(re)` for the separator regexes in play. -/
def jsSplitByRegex (ci : Bool) (re : RE) (t : JStr) : List JStr :=
  splitPieces t 0 (jsMatchAll ci re t)

/-- `splitSentences` (part_004 lines 39–47). -/
def splitSentences (text : JStr) : List JStr :=
  let parts := ((jsSplitByRegex false sentSplitRe
    (replaceCRLF text)).map jsTrim).filter fun s => !s.isEmpty
  if !parts.isEmpty then parts
  else if !(jsTrim text).isEmpty then [jsTrim text] else []

/-- `[A-Za-z0-9']` of the word tokenizer. -/
def wordChar04 (c : Char) : Bool :=
  (Nat.ble 65 c.toNat && Nat.ble c.toNat 90) ||
  (Nat.ble 97 c.toNat && Nat.ble c.toNat 122) ||
  (Nat.ble 48 c.toNat && Nat.ble c.toNat 57) || c.toNat == 39

/-- Fueled kernel of `chunksBy`; each recursive call strictly shortens the
list, so `t.length + 1` fuel computes the total function. -/
def chunksByF (p : Char → Bool) : Nat → JStr → List JStr
  | 0, _ => []
  | _, [] => []
  | fuel + 1, c :: rest =>
    if p c then
      (c :: rest.takeWhile p) :: chunksByF p fuel (rest.dropWhile p)
    else chunksByF p fuel rest

/-- The maximal runs of characters satisfying `p` (what a global
`[c]+`-style `match` returns). -/
def chunksBy (p : Char → Bool) (t : JStr) : List JStr :=
  chunksByF p (t.length + 1) t

/-- `words` (part_004 lines 49–52): maximal runs of `[A-Za-z0-9']`. -/
def wordsOf (text : JStr) : List JStr := chunksBy wordChar04 text

/-- Fueled kernel of `countRuns`. -/
def countRunsF (p : Char → Bool) : Nat → JStr → Nat
  | 0, _ => 0
  | _, [] => 0
  | fuel + 1, c :: rest =>
    if p c then 1 + countRunsF p fuel (rest.dropWhile p)
    else countRunsF p fuel rest

/-- The number of maximal runs of characters satisfying `p` (the length of
a global `[c]+`-style `match` result). -/
def countRuns (p : Char → Bool) (t : JStr) : Nat :=
  countRunsF p (t.length + 1) t

/-- `[a-z]`. -/
def isLowerAlpha (c : Char) : Bool := Nat.ble 97 c.toNat && Nat.ble c.toNat 122

/-- `[aeiouy]`. -/
def isVowelY (c : Char) : Bool :=
  c.toNat == 97 || c.toNat == 101 || c.toNat == 105 || c.toNat == 111 ||
  c.toNat == 117 || c.toNat == 121

/-- `countSyllables` (part_004 lines 55–63): maximal vowel runs of the
lowercased, letters-only word, with the silent-e and the at-least-one
adjustments. -/
def countSyllables (word : JStr) : Nat :=
  let w := (jsToLower word).filter isLowerAlpha
  if w.isEmpty then 0
  else
    let ms := countRuns isVowelY w
    let syllables := if ms = 0 then 1 else ms
    let syllables :=
      if w.getLast? = some (Char.ofNat 101) ∧ 1 < syllables then
        syllables - 1
      else syllables
    Nat.max 1 syllables

/-- `Number.isFinite` on the analyzer's computed values.  The analyzer is
modelled in exact rational arithmetic; its guards make every denominator at
least 1 and all magnitudes stay far below the IEEE double range, so the
corresponding double computations are finite for every input and the check
is constantly true. -/
def jsIsFiniteQ (_ : ℚ) : Bool := true

/-- `fleschReadingEase` (part_004 lines 65–74), over exact rationals:
`206.835 − 1.015·(words/sentences) − 84.6·(syllables/words)` with zero
counts replaced by 1 in the denominator positions. -/
def fleschReadingEase (text : JStr) : ℚ :=
  let ws := wordsOf text
  let sentenceCount : Nat :=
    if (splitSentences text).length = 0 then 1 else (splitSentences text).length
  let wordCount : Nat := if ws.length = 0 then 1 else ws.length
  let syllables : Nat := (ws.map countSyllables).sum
  let asl : ℚ := (wordCount : ℚ) / (sentenceCount : ℚ)
  let asw : ℚ := (syllables : ℚ) / (wordCount : ℚ)
  (206.835 : ℚ) - (1.015 : ℚ) * asl - (84.6 : ℚ) * asw

/-- The summed length of the quoted spans `"[^"]*"` (including the quote
characters), used by `dialogueRatio`. -/
def quotedLenAux : Nat → JStr → Nat
  | 0, _ => 0
  | fuel + 1, l =>
    match l.dropWhile (fun c => !(c.toNat == 34)) with
    | [] => 0
    | _ :: after =>
      let inner := after.takeWhile fun c => !(c.toNat == 34)
      match after.dropWhile (fun c => !(c.toNat == 34)) with
      | [] => 0
      | _ :: rest2 => (inner.length + 2) + quotedLenAux fuel rest2

/-- `dialogueRatio` (part_004 lines 76–80). -/
def dialogueRatio (text : JStr) : ℚ :=
  let total : Nat := if text.length = 0 then 1 else text.length
  let quoted := quotedLenAux (text.length + 1) text
  max 0 (min 1 ((quoted : ℚ) / (total : ℚ)))

/-- `/\b\w+ly\b/gi` (part_004 line 91). -/
def adverbRe : RE :=
  .seq .wordB (.seq (.star1 (.cls isWordChar)) (.seq (.lit (jstr "ly"))
    .wordB))

/-- `/\b(like|as if|as though)\b/gi` (part_004 line 96). -/
def metaphorRe1 : RE :=
  .seq .wordB (.seq (reWords ["like", "as if", "as though"]) .wordB)

/-- `/\bwas a\b/gi` (part_004 line 97). -/
def metaphorRe2 : RE := wordRe (jstr "was a")

/-- The analyzer's metrics record. -/
structure ProseMetrics where
  word_count : Nat
  sentence_count : Nat
  avg_sentence_words : ℚ
  adverb_like_count : Nat
  vague_word_count : Nat
  filler_phrase_count : Nat
  metaphor_marker_count : Nat
  dialogue_ratio : ℚ
  readability_flesch : Option ℚ
deriving DecidableEq, Repr

/-- Result of `analyzeProse`. -/
structure AnalyzeResult where
  metrics : ProseMetrics
deriving DecidableEq, Repr

/-- `analyzeProse` (part_004 lines 82–116). -/
def analyzeProse (text : JStr) : AnalyzeResult :=
  let ws := wordsOf text
  let sents := splitSentences text
  let wordCount := ws.length
  let sentenceCount := sents.length
  let avgSentenceWords : ℚ :=
    if sentenceCount ≠ 0 then (wordCount : ℚ) / (sentenceCount : ℚ) else 0
  let adverbLike := (jsMatchAll true adverbRe text).length
  let vagueWordCount :=
    (VAGUE_WORDS_PROSE.map fun w => countOccurrences text (jstr w)).sum
  let fillerPhraseCount :=
    (FILLER_PHRASES.map fun p => countOccurrences text p).sum
  let metaphorMarkers :=
    (jsMatchAll true metaphorRe1 text).length +
      (jsMatchAll true metaphorRe2 text).length
  let dRatio := dialogueRatio text
  let readability := fleschReadingEase text
  ⟨⟨wordCount, sentenceCount,
    if jsIsFiniteQ avgSentenceWords then avgSentenceWords else 0,
    adverbLike, vagueWordCount, fillerPhraseCount, metaphorMarkers, dRatio,
    if jsIsFiniteQ readability then some readability else none⟩⟩

/-! ## Spec-side and independent reference definitions -/

/-- Modelled from the spec for the comparison in the vague-word claim: the
number of case-insensitive whole-word (whole-phrase) occurrences of an
entry — positions where the entry occurs and its ends do not touch a word
character, so occurrences inside longer words are not counted. -/
def specWholeWordCount (t w : JStr) : Nat :=
  ((List.range (t.length + 1)).filter fun p =>
    (((t.drop p).take w.length).map foldCase == w.map foldCase) &&
    Nat.ble (p + w.length) t.length &&
    (p == 0 || !wordAt t (p - 1)) &&
    !wordAt t (p + w.length)).length

/-- Independent reference counter: the number of leftmost non-overlapping
occurrences of a (nonempty) needle in a haystack, by direct recursion. -/
def countDisjoint (n : JStr) : JStr → Nat
  | [] => 0
  | c :: h =>
    if n ≠ [] ∧ List.isPrefixOf n (c :: h) then
      1 + countDisjoint n ((c :: h).drop n.length)
    else countDisjoint n h
termination_by h => h.length
decreasing_by
  · rename_i hcond
    simp only [List.length_cons, List.length_drop]
    have : n.length ≠ 0 := by
      intro h0
      exact hcond.1 (List.eq_nil_of_length_eq_zero h0)
    omega
  · simp

/-- The case-insensitive leftmost non-overlapping occurrence count:
`countDisjoint` over the case-folded strings. -/
def substrCountCI (hay needle : JStr) : Nat :=
  countDisjoint (needle.map foldCase) (hay.map foldCase)

/-- An exact (not case-folded, not clamped) occurrence of `needle` at
position `p` of `hay`. -/
def occAt (hay needle : JStr) (p : Nat) : Prop :=
  (hay.drop p).take needle.length = needle

instance (hay needle : JStr) (p : Nat) : Decidable (occAt hay needle p) :=
  inferInstanceAs (Decidable (_ = _))

/-- Concrete op used in witnesses: delete `[0, 1)`. -/
def witOp1 : DeAiEditOp := ⟨.delete, ⟨0, 1, jstr "a"⟩, none, jstr "w1"⟩

/-- Concrete op used in witnesses: delete `[3, 4)`. -/
def witOp2 : DeAiEditOp := ⟨.delete, ⟨3, 4, jstr "d"⟩, none, jstr "w2"⟩

/-- Insertion op (replace at the empty span `[5, 5)`) used to refute
order invariance for empty spans. -/
def ceOpIns : DeAiEditOp :=
  ⟨.replace, ⟨5, 5, jstr ""⟩, some (jstr "XX"), jstr "ins"⟩

/-- Delete op on `[5, 9)` used together with `ceOpIns`. -/
def ceOpDel : DeAiEditOp := ⟨.delete, ⟨5, 9, jstr "5678"⟩, none, jstr "del"⟩

/-- A validator that accepts every payload unchanged (used for concrete
store runs; the store logic is independent of the validator's verdicts). -/
def idValidate : ArtifactType → Nat → Option Nat := fun _ p => some p

/-- A fresh store holding exactly project `0`. -/
def store0 : Store := ⟨[0], [], [], 0, 0⟩

/-- First concrete upsert call: triple `(0, style_profile, 0)`,
schema_version 1, payload 10. -/
def call1 : UpsertParams := ⟨0, .style_profile, 0, 1, 10⟩

/-- Second concrete upsert call to the same triple: schema_version 2,
payload 20. -/
def call2 : UpsertParams := ⟨0, .style_profile, 0, 2, 20⟩

/-- The store after running `call1` on `store0`. -/
def store1 : Store := runCalls idValidate store0 [call1]

/-- The store after running `call1` then `call2` on `store0`. -/
def store2 : Store := runCalls idValidate store0 [call1, call2]

/-- The triple's current pointer rests on a revision numbered `k`. -/
def pointerAt (s : Store) (pid : Nat) (ty : ArtifactType) (nm : Nat)
    (k : Nat) : Prop :=
  ∃ a, findArtifact s pid ty nm = some a ∧
    ∃ r ∈ s.revisions, a.currentRevisionId = some r.id ∧
      r.artifactId = a.id ∧ r.revisionNumber = k

/-- In-flight call `A` of the concrete concurrency scenario. -/
def concA : UpCall := ⟨⟨0, .style_profile, 0, 1, 10⟩, .start⟩

/-- In-flight call `B` of the concrete concurrency scenario. -/
def concB : UpCall := ⟨⟨0, .style_profile, 0, 1, 20⟩, .start⟩

/-- The racing schedule: both calls read before either commits. -/
def racingSched : List Bool := [true, false, true, false]

/-- Outcome guaranteed after two concurrent upserts of a fresh triple in
project 0: either both calls succeeded and the triple holds exactly revisions
`[1, 2]` with the pointer on 2, or exactly one call succeeded (the other
aborted on a unique constraint) and the triple holds exactly `[1]` with the
pointer on 1.  Never two revisions numbered 1, never a gap, and the pointer
always rests on the highest revision written. -/
def isolationOutcome (out : Store × UpCall × UpCall) (ty : ArtifactType)
    (nm : Nat) : Prop :=
  (tripleRevNums out.1 0 ty nm = [1, 2] ∧ out.2.1.ok = true ∧
      out.2.2.ok = true ∧ pointerAt out.1 0 ty nm 2)
  ∨ (tripleRevNums out.1 0 ty nm = [1] ∧ out.2.1.ok ≠ out.2.2.ok ∧
      pointerAt out.1 0 ty nm 1)

/-- The C9 counterexample text: LATIN CAPITAL LETTER I WITH DOT ABOVE
(U+0130) followed by `time stood still` (17 code units). -/
def tIstanbul : JStr := Char.ofNat 0x130 :: jstr "time stood still"

/-- The C3 counterexample text: two banned phrases back to back, with
exactly one occurrence of `time stood still` (27 code units). -/
def tClichePair : JStr := jstr "time stood stillcold as ice"

/-! ## Theorems about the Edit Applier -/

/-- The apply loop factors as: filter the applicable ops, fold the slicing
step over them, and report exactly the filtered list as `applied`. -/
theorem applyLoop_eq (l : List DeAiEditOp) : ∀ out : JStr,
    applyLoop out l =
      ⟨(l.filter isAppliedOp).foldl applyOne out, l.filter isAppliedOp⟩ := by
  induction l with
  | nil => intro out; rfl
  | cons op rest ih =>
    intro out
    cases hk : op.op with
    | delete =>
      simp only [applyLoop, hk, List.filter_cons, isAppliedOp, ih]
      simp
    | replace =>
      cases hr : op.replacement with
      | none =>
        simp only [applyLoop, hk, hr, List.filter_cons, isAppliedOp,
          Option.isSome_none, ih]
        simp
      | some repl =>
        simp only [applyLoop, hk, hr, List.filter_cons, isAppliedOp,
          Option.isSome_some, ih]
        simp

/-- C10: `applySafeDeAiOps` silently skips every replace op whose
replacement is not a string (it changes nothing and is left out of
`applied`), applies every delete op and every replace op with a string
replacement that survived the 120-op cap, and `applied` is the filtered,
descending-by-start sorted list, in application order. -/
theorem applySafeDeAiOps_skips_null_replacements (text : JStr)
    (ops : List DeAiEditOp) :
    (applySafeDeAiOps text ops).applied
        = (sortOpsDesc (ops.take 120)).filter isAppliedOp
      ∧ (applySafeDeAiOps text ops).text
        = ((sortOpsDesc (ops.take 120)).filter isAppliedOp).foldl applyOne text
      ∧ (applySafeDeAiOps text ops).applied.Sorted opGe := by
  have h := applyLoop_eq (sortOpsDesc (ops.take 120)) text
  refine ⟨?_, ?_, ?_⟩
  · rw [applySafeDeAiOps, h]
  · rw [applySafeDeAiOps, h]
  · rw [applySafeDeAiOps, h]
    exact List.Pairwise.sublist (List.filter_sublist _)
      (List.sorted_insertionSort opGe (ops.take 120))

/-- Two sorted lists that are permutations of each other and whose members
the order relation separates are equal. -/
theorem sorted_perm_eq_of_anti {α : Type} {r : α → α → Prop} :
    ∀ {l₁ l₂ : List α}, l₁.Perm l₂ → l₁.Sorted r → l₂.Sorted r →
      (∀ a ∈ l₁, ∀ b ∈ l₁, r a b → r b a → a = b) → l₁ = l₂ := by
  intro l₁
  induction l₁ with
  | nil =>
    intro l₂ p _ _ _
    exact (p.symm.eq_nil).symm
  | cons a t ih =>
    intro l₂ p s₁ s₂ anti
    cases l₂ with
    | nil => exact absurd p (by simp)
    | cons b t₂ =>
      have hb : b ∈ a :: t := p.mem_iff.mpr (List.mem_cons_self b t₂)
      have ha : a ∈ b :: t₂ := p.mem_iff.mp (List.mem_cons_self a t)
      have hab : a = b := by
        rcases List.mem_cons.mp hb with h | hbt
        · exact h.symm
        rcases List.mem_cons.mp ha with h | hat
        · exact h
        exact anti a (List.mem_cons_self a t) b hb
          (List.rel_of_sorted_cons s₁ b hbt)
          (List.rel_of_sorted_cons s₂ a hat)
      subst hab
      have p' : t.Perm t₂ := p.cons_inv
      rw [ih p' s₁.of_cons s₂.of_cons
        (fun x hx y hy => anti x (List.mem_cons_of_mem _ hx) y
          (List.mem_cons_of_mem _ hy))]

/-- C7 (amended): for at most 120 ops with nonempty, in-bounds, pairwise
non-overlapping spans, `applySafeDeAiOps` produces the same final string for
every permutation of the input order. -/
theorem applySafeDeAiOps_order_invariant (text : JStr)
    (ops₁ ops₂ : List DeAiEditOp) (hperm : ops₁.Perm ops₂)
    (hlen : ops₁.length ≤ 120)
    (hspan : ∀ op ∈ ops₁,
      op.span.start < op.span.endPos ∧ op.span.endPos ≤ text.length)
    (hdisj : ops₁.Pairwise spansDisjoint) :
    (applySafeDeAiOps text ops₁).text = (applySafeDeAiOps text ops₂).text := by
  have hlen₂ : ops₂.length ≤ 120 := hperm.length_eq ▸ hlen
  have ht₁ : ops₁.take 120 = ops₁ := List.take_of_length_le hlen
  have ht₂ : ops₂.take 120 = ops₂ := List.take_of_length_le hlen₂
  have hanti : ∀ a ∈ sortOpsDesc ops₁, ∀ b ∈ sortOpsDesc ops₁,
      opGe a b → opGe b a → a = b := by
    intro a hamem b hbmem hab hba
    have ha : a ∈ ops₁ := (List.mem_insertionSort opGe).mp hamem
    have hbm : b ∈ ops₁ := (List.mem_insertionSort opGe).mp hbmem
    by_cases h : a = b
    · exact h
    · have hd : spansDisjoint a b :=
        hdisj.forall (fun x y hxy => hxy.symm) ha hbm h
      have hstart : a.span.start = b.span.start := Nat.le_antisymm hba hab
      rcases hd with hd | hd
      · have := (hspan a ha).1
        omega
      · have := (hspan b hbm).1
        omega
  have hsort : sortOpsDesc ops₁ = sortOpsDesc ops₂ := by
    apply sorted_perm_eq_of_anti
      (((List.perm_insertionSort opGe ops₁).trans hperm).trans
        (List.perm_insertionSort opGe ops₂).symm)
      (List.sorted_insertionSort opGe ops₁)
      (List.sorted_insertionSort opGe ops₂) hanti
  rw [applySafeDeAiOps, applySafeDeAiOps, ht₁, ht₂, hsort]

/-- Concrete witness for the amended apply-order invariance: two disjoint
deletes on `"abcdef"` commute. -/
theorem applySafeDeAiOps_order_invariant_witness :
    ([witOp1, witOp2] : List DeAiEditOp).Perm [witOp2, witOp1] ∧
    (applySafeDeAiOps (jstr "abcdef") [witOp1, witOp2]).text
      = (applySafeDeAiOps (jstr "abcdef") [witOp2, witOp1]).text :=
  ⟨List.Perm.swap witOp2 witOp1 [],
    applySafeDeAiOps_order_invariant (jstr "abcdef") [witOp1, witOp2]
      [witOp2, witOp1] (List.Perm.swap witOp2 witOp1 [])
      (by decide) (by decide) (by decide)⟩

/-- C7 counterexample: two in-bounds, pairwise non-overlapping ops on
`"0123456789"` — an insertion at the empty span `[5, 5)` and a delete of
`[5, 9)` — give different outputs in the two input orders, because the
descending-by-start sort cannot separate ops with equal `start`.  The claim
as stated (which does not exclude empty spans) is therefore false. -/
theorem applySafeDeAiOps_order_counterexample :
    ([ceOpIns, ceOpDel] : List DeAiEditOp).Perm [ceOpDel, ceOpIns]
    ∧ (∀ op ∈ ([ceOpIns, ceOpDel] : List DeAiEditOp),
        op.span.start ≤ op.span.endPos
          ∧ op.span.endPos ≤ (jstr "0123456789").length)
    ∧ ([ceOpIns, ceOpDel] : List DeAiEditOp).Pairwise spansDisjoint
    ∧ (applySafeDeAiOps (jstr "0123456789") [ceOpIns, ceOpDel]).text
        ≠ (applySafeDeAiOps (jstr "0123456789") [ceOpDel, ceOpIns]).text :=
  ⟨List.Perm.swap ceOpDel ceOpIns [], by decide, by decide, by decide⟩

/-! ## Theorems about the artifact store -/

/-- `store0` is wellformed. -/
theorem storeWF_store0 : StoreWF store0 :=
  ⟨by simp [store0], by simp [store0], by simp [store0], by simp [store0],
    by simp [store0], by simp [store0]⟩

/-- Map over a list of artifacts whose ids all differ from `aid` is the
identity, for the pointer-update function of the create branch. -/
theorem map_update_id (aid rid : Nat) :
    ∀ l : List Artifact, (∀ a ∈ l, a.id ≠ aid) →
      l.map (fun a => if a.id == aid then
        { a with currentRevisionId := some rid } else a) = l := by
  intro l
  induction l with
  | nil => intro _; rfl
  | cons x xs ih =>
    intro hne
    have hx : (x.id == aid) = false := by
      simp [hne x (List.mem_cons_self x xs)]
    simp only [List.map_cons, hx, Bool.false_eq_true, if_false,
      ih (fun a ha => hne a (List.mem_cons_of_mem _ ha))]

/-- Case analysis of a successful `upsertArtifact`: the exact store and
result it produces in the create branch and in the append branch. -/
theorem upsert_shape (validate : ArtifactType → Nat → Option Nat)
    {s : Store} {p : UpsertParams} {s' : Store} {res : UpsertResult}
    (hwf : StoreWF s) (h : upsertArtifact validate s p = some (s', res)) :
    ∃ v : Nat, validate p.type p.payload = some v ∧
      p.projectId ∈ s.projects ∧
      ((findArtifact s p.projectId p.type p.name = none ∧
        s' = ⟨s.projects,
          s.artifacts ++ [⟨s.nextArtifactId, p.projectId, p.type, p.name,
            p.schemaVersion, some s.nextRevisionId⟩],
          s.revisions ++ [⟨s.nextRevisionId, s.nextArtifactId, 1, v⟩],
          s.nextArtifactId + 1, s.nextRevisionId + 1⟩ ∧
        res = ⟨s.nextArtifactId, p.type, p.name, p.schemaVersion, 1⟩)
      ∨ (∃ a, findArtifact s p.projectId p.type p.name = some a ∧
        s' = ⟨s.projects,
          s.artifacts.map (fun x => if x.id == a.id then
            { x with schemaVersion := p.schemaVersion,
                     currentRevisionId := some s.nextRevisionId } else x),
          s.revisions ++ [⟨s.nextRevisionId, a.id, maxRevNum s a.id + 1, v⟩],
          s.nextArtifactId, s.nextRevisionId + 1⟩ ∧
        res = ⟨a.id, a.type, a.name, p.schemaVersion,
          maxRevNum s a.id + 1⟩)) := by
  unfold upsertArtifact at h
  split at h
  case isFalse => exact absurd h (by simp)
  case isTrue hproj =>
  cases hv : validate p.type p.payload with
  | none => rw [hv] at h; exact absurd h (by simp)
  | some v =>
  rw [hv] at h
  cases hfind : findArtifact s p.projectId p.type p.name with
  | none =>
    rw [hfind] at h
    simp only [Option.some.injEq, Prod.mk.injEq] at h
    obtain ⟨hs, hres⟩ := h
    refine ⟨v, rfl, hproj, Or.inl ⟨rfl, ?_, hres.symm⟩⟩
    rw [← hs]
    have hmap := map_update_id s.nextArtifactId s.nextRevisionId s.artifacts
      (fun a ha => Nat.ne_of_lt (hwf.artIdLt a ha))
    refine Store.mk.injEq .. ▸ ⟨rfl, ?_, rfl, rfl, rfl⟩
    rw [List.map_append, hmap]
    simp
  | some a =>
    rw [hfind] at h
    simp only [Option.some.injEq, Prod.mk.injEq] at h
    obtain ⟨hs, hres⟩ := h
    exact ⟨v, rfl, hproj, Or.inr ⟨a, rfl, hs ▸ rfl, hres.symm⟩⟩

/-- `find?` over a map, when the function preserves the predicate. -/
theorem find?_map_pred {α : Type} (f : α → α) (p : α → Bool)
    (hf : ∀ x, p (f x) = p x) :
    ∀ l : List α, (l.map f).find? p = Option.map f (l.find? p) := by
  intro l
  induction l with
  | nil => rfl
  | cons x xs ih =>
    by_cases hx : p x
    · rw [List.map_cons, List.find?_cons_of_pos _ (by rw [hf]; exact hx),
        List.find?_cons_of_pos _ hx, Option.map_some']
    · rw [List.map_cons, List.find?_cons_of_neg _ (by rw [hf]; simpa using hx),
        List.find?_cons_of_neg _ (by simpa using hx), ih]

/-- `foldr max b` is `b` when every element is at most `b`. -/
theorem foldr_max_eq (b : Nat) : ∀ l : List Nat, (∀ m ∈ l, m ≤ b) →
    l.foldr Nat.max b = b := by
  intro l
  induction l with
  | nil => intro _; rfl
  | cons x xs ih =>
    intro h
    rw [List.foldr_cons, ih (fun m hm => h m (List.mem_cons_of_mem _ hm))]
    exact Nat.max_eq_right (h x (List.mem_cons_self x xs))

/-- The append-branch artifact update keeps `id`, `projectId`, `type` and
`name`. -/
theorem updArt_fields (aid rid sv : Nat) (x : Artifact) :
    ((if x.id == aid then
      { x with schemaVersion := sv, currentRevisionId := some rid }
      else x) : Artifact).id = x.id ∧
    ((if x.id == aid then
      { x with schemaVersion := sv, currentRevisionId := some rid }
      else x) : Artifact).projectId = x.projectId ∧
    ((if x.id == aid then
      { x with schemaVersion := sv, currentRevisionId := some rid }
      else x) : Artifact).type = x.type ∧
    ((if x.id == aid then
      { x with schemaVersion := sv, currentRevisionId := some rid }
      else x) : Artifact).name = x.name := by
  split <;> exact ⟨rfl, rfl, rfl, rfl⟩

/-- The append-branch artifact update preserves the triple predicate of
`findArtifact`. -/
theorem updArt_match (pid : Nat) (ty : ArtifactType) (nm aid rid sv : Nat)
    (x : Artifact) :
    (((if x.id == aid then
        { x with schemaVersion := sv, currentRevisionId := some rid }
        else x) : Artifact).projectId == pid &&
      ((if x.id == aid then
        { x with schemaVersion := sv, currentRevisionId := some rid }
        else x) : Artifact).type == ty &&
      ((if x.id == aid then
        { x with schemaVersion := sv, currentRevisionId := some rid }
        else x) : Artifact).name == nm)
    = (x.projectId == pid && x.type == ty && x.name == nm) := by
  split <;> rfl

/-- Wellformedness is preserved by every successful upsert. -/
theorem upsert_wf (validate : ArtifactType → Nat → Option Nat) {s : Store}
    {p : UpsertParams} {s' : Store} {res : UpsertResult} (hwf : StoreWF s)
    (h : upsertArtifact validate s p = some (s', res)) : StoreWF s' := by
  obtain ⟨v, hv, hproj, ⟨hfind, hs, hres⟩ | ⟨a, hfind, hs, hres⟩⟩ :=
    upsert_shape validate hwf h
  · subst hs
    have hfind' : s.artifacts.find? (fun x =>
        x.projectId == p.projectId && x.type == p.type && x.name == p.name)
        = none := hfind
    have hnone : ∀ x ∈ s.artifacts,
        ¬(x.projectId == p.projectId && x.type == p.type &&
          x.name == p.name) = true :=
      fun x hx => List.find?_eq_none.mp hfind' x hx
    refine ⟨?_, ?_, ?_, ?_, ?_, ?_⟩
    · intro x hx
      rcases List.mem_append.mp hx with hx | hx
      · exact Nat.lt_succ_of_lt (hwf.artIdLt x hx)
      · simp only [List.mem_singleton] at hx
        subst hx
        exact Nat.lt_succ_self _
    · intro r hr
      rcases List.mem_append.mp hr with hr | hr
      · exact Nat.lt_succ_of_lt (hwf.revIdLt r hr)
      · simp only [List.mem_singleton] at hr
        subst hr
        exact Nat.lt_succ_self _
    · intro r hr
      rcases List.mem_append.mp hr with hr | hr
      · exact Nat.lt_succ_of_lt (hwf.revArtIdLt r hr)
      · simp only [List.mem_singleton] at hr
        subst hr
        exact Nat.lt_succ_self _
    · rw [List.map_append]
      refine hwf.artNodup.append (by simp) ?_
      intro m hm1 hm2
      simp only [List.map_cons, List.map_nil, List.mem_singleton] at hm2
      subst hm2
      obtain ⟨x, hx, hxid⟩ := List.mem_map.mp hm1
      exact absurd hxid (Nat.ne_of_lt (hwf.artIdLt x hx))
    · rw [List.map_append]
      refine hwf.revNodup.append (by simp) ?_
      intro m hm1 hm2
      simp only [List.map_cons, List.map_nil, List.mem_singleton] at hm2
      subst hm2
      obtain ⟨r, hr, hrid⟩ := List.mem_map.mp hm1
      exact absurd hrid (Nat.ne_of_lt (hwf.revIdLt r hr))
    · intro x hx y hy h1 h2 h3
      rcases List.mem_append.mp hx with hx | hx <;>
        rcases List.mem_append.mp hy with hy | hy
      · exact hwf.tripleUnique x hx y hy h1 h2 h3
      · simp only [List.mem_singleton] at hy
        subst hy
        exact absurd (by simp [h1, h2, h3]) (hnone x hx)
      · simp only [List.mem_singleton] at hx
        subst hx
        exact absurd (by simp [← h1, ← h2, ← h3]) (hnone y hy)
      · simp only [List.mem_singleton] at hx hy
        rw [hx, hy]
  · subst hs
    have hfind' : s.artifacts.find? (fun x =>
        x.projectId == p.projectId && x.type == p.type && x.name == p.name)
        = some a := hfind
    have hamem : a ∈ s.artifacts := List.mem_of_find?_eq_some hfind'
    refine ⟨?_, ?_, ?_, ?_, ?_, ?_⟩
    · intro x hx
      obtain ⟨y, hy, hxy⟩ := List.mem_map.mp hx
      rw [← hxy, (updArt_fields a.id s.nextRevisionId p.schemaVersion y).1]
      exact hwf.artIdLt y hy
    · intro r hr
      rcases List.mem_append.mp hr with hr | hr
      · exact Nat.lt_succ_of_lt (hwf.revIdLt r hr)
      · simp only [List.mem_singleton] at hr
        subst hr
        exact Nat.lt_succ_self _
    · intro r hr
      rcases List.mem_append.mp hr with hr | hr
      · exact hwf.revArtIdLt r hr
      · simp only [List.mem_singleton] at hr
        subst hr
        exact hwf.artIdLt a hamem
    · rw [List.map_map]
      have : ((fun x : Artifact => x.id) ∘ fun x : Artifact =>
          if x.id == a.id then
            { x with schemaVersion := p.schemaVersion,
                     currentRevisionId := some s.nextRevisionId }
          else x) = fun x : Artifact => x.id :=
        funext fun x =>
          (updArt_fields a.id s.nextRevisionId p.schemaVersion x).1
      rw [this]
      exact hwf.artNodup
    · rw [List.map_append]
      refine hwf.revNodup.append (by simp) ?_
      intro m hm1 hm2
      simp only [List.map_cons, List.map_nil, List.mem_singleton] at hm2
      subst hm2
      obtain ⟨r, hr, hrid⟩ := List.mem_map.mp hm1
      exact absurd hrid (Nat.ne_of_lt (hwf.revIdLt r hr))
    · intro x hx y hy h1 h2 h3
      obtain ⟨x0, hx0, hxx⟩ := List.mem_map.mp hx
      obtain ⟨y0, hy0, hyy⟩ := List.mem_map.mp hy
      subst hxx hyy
      obtain ⟨_, hxp, hxt, hxn⟩ :=
        updArt_fields a.id s.nextRevisionId p.schemaVersion x0
      obtain ⟨_, hyp, hyt, hyn⟩ :=
        updArt_fields a.id s.nextRevisionId p.schemaVersion y0
      rw [hxp, hyp] at h1
      rw [hxt, hyt] at h2
      rw [hxn, hyn] at h3
      rw [hwf.tripleUnique x0 hx0 y0 hy0 h1 h2 h3]

/-- The revision numbers of a filtered revision list are a permutation of
their sorted form. -/
theorem nums_perm_of_sorted {l : List ArtifactRevision} {aid n : Nat}
    (hsort : (((l.filter fun r => r.artifactId == aid).insertionSort
      revLe).map fun r => r.revisionNumber) = List.range' 1 n) :
    (((l.filter fun r => r.artifactId == aid).map
      fun r => r.revisionNumber)).Perm (List.range' 1 n) :=
  hsort ▸ ((List.perm_insertionSort revLe _).map fun r => r.revisionNumber).symm

/-- Appending one revision numbered `n + 1` for an artifact that holds
exactly numbers `1..n` yields the ascending number list `1..n+1`. -/
theorem sorted_nums_snoc (l : List ArtifactRevision) (aid n : Nat)
    (rev : ArtifactRevision)
    (hsort : (((l.filter fun r => r.artifactId == aid).insertionSort
      revLe).map fun r => r.revisionNumber) = List.range' 1 n)
    (haid : (rev.artifactId == aid) = true)
    (hnum : rev.revisionNumber = n + 1) :
    ((((l ++ [rev]).filter fun r => r.artifactId == aid).insertionSort
      revLe).map fun r => r.revisionNumber) = List.range' 1 (n + 1) := by
  have hfilter : ((l ++ [rev]).filter fun r => r.artifactId == aid)
      = (l.filter fun r => r.artifactId == aid) ++ [rev] := by
    rw [List.filter_append]
    simp [List.filter, haid]
  have hperm : (List.map (fun r : ArtifactRevision => r.revisionNumber)
      (List.insertionSort revLe
        (List.filter (fun r : ArtifactRevision => r.artifactId == aid)
          (l ++ [rev])))).Perm (List.range' 1 (n + 1)) := by
    rw [hfilter]
    have h1 : (List.insertionSort revLe
        ((List.filter (fun r : ArtifactRevision => r.artifactId == aid) l)
          ++ [rev])).Perm
        ((List.filter (fun r : ArtifactRevision => r.artifactId == aid) l)
          ++ [rev]) :=
      List.perm_insertionSort revLe _
    have h2 := h1.map (fun r : ArtifactRevision => r.revisionNumber)
    rw [List.map_append] at h2
    refine h2.trans ?_
    have h3 := (nums_perm_of_sorted hsort).append_right
      ([rev].map (fun r : ArtifactRevision => r.revisionNumber))
    refine h3.trans ?_
    have h4 : List.range' 1 (n + 1) = List.range' 1 n ++ [n + 1] := by
      have h5 := @List.range'_concat 1 1 n
      simpa [Nat.add_comm] using h5
    rw [h4]
    simp [hnum]
  have hsorted : (List.map (fun r : ArtifactRevision => r.revisionNumber)
      (List.insertionSort revLe
        (List.filter (fun r : ArtifactRevision => r.artifactId == aid)
          (l ++ [rev])))).Sorted (· ≤ ·) := by
    refine List.Pairwise.map _ ?_ (List.sorted_insertionSort revLe _)
    exact fun a b hab => hab
  have hrange : (List.range' 1 (n + 1)).Sorted (· ≤ ·) :=
    (List.pairwise_lt_range' 1 (n + 1)).imp fun h => Nat.le_of_lt h
  exact List.eq_of_perm_of_sorted hperm hsorted hrange

/-- Appending one revision numbered `n + 1` for an artifact that holds
exactly numbers `1..n` makes its greatest revision number `n + 1`. -/
theorem max_nums_snoc (l : List ArtifactRevision) (aid n : Nat)
    (rev : ArtifactRevision)
    (hsort : (((l.filter fun r => r.artifactId == aid).insertionSort
      revLe).map fun r => r.revisionNumber) = List.range' 1 n)
    (haid : (rev.artifactId == aid) = true)
    (hnum : rev.revisionNumber = n + 1) :
    ((((l ++ [rev]).filter fun r => r.artifactId == aid).map
      fun r => r.revisionNumber)).foldr Nat.max 0 = n + 1 := by
  have hfilter : ((l ++ [rev]).filter fun r => r.artifactId == aid)
      = (l.filter fun r => r.artifactId == aid) ++ [rev] := by
    rw [List.filter_append]
    simp [List.filter, haid]
  rw [hfilter, List.map_append, List.foldr_append]
  have hle : ∀ m ∈ ((l.filter fun r => r.artifactId == aid).map
      fun r => r.revisionNumber), m ≤ n + 1 := by
    intro m hm
    have := (nums_perm_of_sorted hsort).mem_iff.mp hm
    have := (List.mem_range'_1.mp this).2
    omega
  have : ([rev].map fun r => r.revisionNumber).foldr Nat.max 0 = n + 1 := by
    simp [hnum]
  rw [this]
  exact foldr_max_eq (n + 1) _ hle

/-- Introduction form of `TripleInv` at a positive count. -/
theorem tripleInv_succ_intro {s : Store} {pid : Nat} {ty : ArtifactType}
    {nm n : Nat} (hp : pid ∈ s.projects) (a : Artifact)
    (hfind : findArtifact s pid ty nm = some a)
    (hsort : sortedRevNums s a.id = List.range' 1 (n + 1))
    (hmax : maxRevNum s a.id = n + 1) (r : ArtifactRevision)
    (hr : r ∈ s.revisions) (hptr : a.currentRevisionId = some r.id)
    (hraid : r.artifactId = a.id) (hrnum : r.revisionNumber = n + 1) :
    TripleInv s pid ty nm (n + 1) := by
  show pid ∈ s.projects ∧ ∃ a, findArtifact s pid ty nm = some a ∧
    sortedRevNums s a.id = List.range' 1 (n + 1) ∧
    maxRevNum s a.id = n + 1 ∧
    ∃ r ∈ s.revisions, a.currentRevisionId = some r.id ∧
      r.artifactId = a.id ∧ r.revisionNumber = n + 1
  exact ⟨hp, a, hfind, hsort, hmax, r, hr, hptr, hraid, hrnum⟩

/-- A successful upsert to a different triple leaves a triple's run
invariant intact. -/
theorem upsert_preserves_tripleInv (validate : ArtifactType → Nat → Option Nat)
    {s : Store} {p : UpsertParams} {s' : Store} {res : UpsertResult}
    (hwf : StoreWF s) (h : upsertArtifact validate s p = some (s', res))
    (pid : Nat) (ty : ArtifactType) (nm : Nat) (n : Nat)
    (hdiff : ¬(p.projectId = pid ∧ p.type = ty ∧ p.name = nm))
    (hinv : TripleInv s pid ty nm n) : TripleInv s' pid ty nm n := by
  have hq : (p.projectId == pid && p.type == ty && p.name == nm) = false := by
    cases hb : (p.projectId == pid && p.type == ty && p.name == nm) with
    | false => rfl
    | true =>
      simp only [Bool.and_eq_true, beq_iff_eq] at hb
      exact absurd ⟨hb.1.1, hb.1.2, hb.2⟩ hdiff
  obtain ⟨v, hv, hproj, ⟨hfind, hs, hres⟩ | ⟨a, hfind, hs, hres⟩⟩ :=
    upsert_shape validate hwf h
  · subst hs
    cases n with
    | zero =>
      show List.find? _ _ = none
      rw [List.find?_append]
      have h0 : List.find? (fun a : Artifact =>
          a.projectId == pid && a.type == ty && a.name == nm) s.artifacts
          = none := hinv
      rw [h0]
      simpa using hq
    | succ n =>
      obtain ⟨hp, a₀, ha₀, hsort, hmax, r₀, hr₀, hptr, hraid, hrnum⟩ := hinv
      have ha₀' : List.find? (fun a : Artifact =>
          a.projectId == pid && a.type == ty && a.name == nm) s.artifacts
          = some a₀ := ha₀
      have hamem : a₀ ∈ s.artifacts := List.mem_of_find?_eq_some ha₀'
      have haidlt : a₀.id < s.nextArtifactId := hwf.artIdLt a₀ hamem
      have hfilterEq : ∀ m : List ArtifactRevision,
          ((m ++ [(⟨s.nextRevisionId, s.nextArtifactId, 1, v⟩ :
              ArtifactRevision)]).filter
            fun r => r.artifactId == a₀.id)
          = (m.filter fun r => r.artifactId == a₀.id) := by
        intro m
        rw [List.filter_append]
        simp [Nat.ne_of_gt haidlt]
      refine tripleInv_succ_intro hp a₀ ?_ ?_ ?_ r₀
        (List.mem_append_left _ hr₀) hptr hraid hrnum
      · show List.find? _ _ = some a₀
        rw [List.find?_append, ha₀']
        rfl
      · show ((((s.revisions ++ _).filter _).insertionSort revLe).map _) = _
        rw [hfilterEq]
        exact hsort
      · show ((((s.revisions ++ _).filter _).map _).foldr Nat.max 0) = _
        rw [hfilterEq]
        exact hmax
  · subst hs
    have hqf := updArt_match pid ty nm a.id s.nextRevisionId p.schemaVersion
    have hmapfind : ∀ l : List Artifact,
        (l.map fun x => if x.id == a.id then
          { x with schemaVersion := p.schemaVersion,
                   currentRevisionId := some s.nextRevisionId } else x).find?
          (fun x => x.projectId == pid && x.type == ty && x.name == nm)
        = Option.map (fun x => if x.id == a.id then
            { x with schemaVersion := p.schemaVersion,
                     currentRevisionId := some s.nextRevisionId } else x)
          (l.find? fun x =>
            x.projectId == pid && x.type == ty && x.name == nm) :=
      find?_map_pred _ _ hqf
    cases n with
    | zero =>
      show List.find? _ _ = none
      rw [hmapfind s.artifacts]
      have h0 : List.find? (fun x : Artifact =>
          x.projectId == pid && x.type == ty && x.name == nm) s.artifacts
          = none := hinv
      rw [h0]
      rfl
    | succ n =>
      obtain ⟨hp, a₀, ha₀, hsort, hmax, r₀, hr₀, hptr, hraid, hrnum⟩ := hinv
      have ha₀' : List.find? (fun x : Artifact =>
          x.projectId == pid && x.type == ty && x.name == nm) s.artifacts
          = some a₀ := ha₀
      have hfind' : List.find? (fun x : Artifact =>
          x.projectId == p.projectId && x.type == p.type &&
            x.name == p.name) s.artifacts = some a := hfind
      have hne : a₀ ≠ a := by
        intro hcontra
        have h1 := List.find?_some ha₀'
        have h2 := List.find?_some hfind'
        simp only [Bool.and_eq_true, beq_iff_eq] at h1 h2
        subst hcontra
        exact hdiff ⟨h2.1.1.symm.trans h1.1.1, h2.1.2.symm.trans h1.1.2,
          h2.2.symm.trans h1.2⟩
      have hneid : (a₀.id == a.id) = false := by
        have hmema : a ∈ s.artifacts := List.mem_of_find?_eq_some hfind'
        have hmema₀ : a₀ ∈ s.artifacts := List.mem_of_find?_eq_some ha₀'
        cases hb : (a₀.id == a.id) with
        | false => rfl
        | true =>
          have := List.inj_on_of_nodup_map hwf.artNodup hmema₀ hmema
            (by simpa using hb)
          exact absurd this hne
      have hfa₀ : (if a₀.id == a.id then
          { a₀ with schemaVersion := p.schemaVersion,
                    currentRevisionId := some s.nextRevisionId } else a₀)
          = a₀ := by
        rw [hneid]
        rfl
      have hfilterEq : ∀ m : List ArtifactRevision,
          ((m ++ [(⟨s.nextRevisionId, a.id, maxRevNum s a.id + 1, v⟩ :
              ArtifactRevision)]).filter
            fun r => r.artifactId == a₀.id)
          = (m.filter fun r => r.artifactId == a₀.id) := by
        intro m
        rw [List.filter_append]
        have haa : ((a.id : Nat) == a₀.id) = false := by
          cases hb : ((a.id : Nat) == a₀.id) with
          | false => rfl
          | true =>
            simp only [beq_iff_eq] at hb
            rw [hb] at hneid
            simp at hneid
        simp [List.filter, haa]
      refine tripleInv_succ_intro hp a₀ ?_ ?_ ?_ r₀
        (List.mem_append_left _ hr₀) hptr hraid hrnum
      · show List.find? _ _ = some a₀
        rw [hmapfind s.artifacts, ha₀', Option.map_some', hfa₀]
      · show ((((s.revisions ++ _).filter _).insertionSort revLe).map _) = _
        rw [hfilterEq]
        exact hsort
      · show ((((s.revisions ++ _).filter _).map _).foldr Nat.max 0) = _
        rw [hfilterEq]
        exact hmax

/-- A successful upsert to a triple advances the triple's run invariant from
`n` to `n + 1` and reports revision number `n + 1`. -/
theorem upsert_advances_tripleInv (validate : ArtifactType → Nat → Option Nat)
    {s : Store} {p : UpsertParams} {s' : Store} {res : UpsertResult} {n : Nat}
    (hwf : StoreWF s) (h : upsertArtifact validate s p = some (s', res))
    (hinv : TripleInv s p.projectId p.type p.name n) :
    TripleInv s' p.projectId p.type p.name (n + 1) ∧ res.revision = n + 1 := by
  obtain ⟨v, hv, hproj, ⟨hfind, hs, hres⟩ | ⟨a, hfind, hs, hres⟩⟩ :=
    upsert_shape validate hwf h
  · cases n with
    | succ n =>
      obtain ⟨_, a₀, ha₀, _⟩ := hinv
      rw [hfind] at ha₀
      exact absurd ha₀ (by simp)
    | zero =>
      subst hs
      have hfO : (s.revisions.filter fun r : ArtifactRevision =>
          r.artifactId == s.nextArtifactId) = [] := by
        rw [List.filter_eq_nil_iff]
        intro r hr
        simp [Nat.ne_of_lt (hwf.revArtIdLt r hr)]
      constructor
      · refine tripleInv_succ_intro hproj
          ⟨s.nextArtifactId, p.projectId, p.type, p.name, p.schemaVersion,
            some s.nextRevisionId⟩ ?_ ?_ ?_
          ⟨s.nextRevisionId, s.nextArtifactId, 1, v⟩
          (List.mem_append_right _ (List.mem_singleton.mpr rfl)) rfl rfl rfl
        · show List.find? _ _ = some _
          rw [List.find?_append]
          have h0 : List.find? (fun x : Artifact =>
              x.projectId == p.projectId && x.type == p.type &&
                x.name == p.name) s.artifacts = none := hinv
          rw [h0]
          simp
        · show ((((s.revisions ++ _).filter _).insertionSort revLe).map _) = _
          rw [List.filter_append, hfO]
          simp [List.insertionSort, List.orderedInsert, List.range']
        · show ((((s.revisions ++ _).filter _).map _).foldr Nat.max 0) = _
          rw [List.filter_append, hfO]
          simp
      · rw [hres]
  · cases n with
    | zero =>
      have h0 : findArtifact s p.projectId p.type p.name = none := hinv
      rw [h0] at hfind
      exact absurd hfind (by simp)
    | succ n =>
      obtain ⟨hp, a₀, ha₀, hsort, hmax, r₀, hr₀, hptr, hraid, hrnum⟩ := hinv
      have haa₀ : a₀ = a := by
        have h1 := ha₀.symm.trans hfind
        injection h1
      subst haa₀
      subst hs
      constructor
      · refine tripleInv_succ_intro hp
          { a₀ with schemaVersion := p.schemaVersion,
                    currentRevisionId := some s.nextRevisionId } ?_ ?_ ?_
          ⟨s.nextRevisionId, a₀.id, maxRevNum s a₀.id + 1, v⟩
          (List.mem_append_right _ (List.mem_singleton.mpr rfl)) rfl rfl ?_
        · show List.find? _ _ = some _
          have hqf := updArt_match p.projectId p.type p.name a₀.id
            s.nextRevisionId p.schemaVersion
          rw [find?_map_pred _ _ hqf s.artifacts]
          have hfind' : List.find? (fun x : Artifact =>
              x.projectId == p.projectId && x.type == p.type &&
                x.name == p.name) s.artifacts = some a₀ := hfind
          rw [hfind', Option.map_some']
          simp
        · show ((((s.revisions ++ _).filter _).insertionSort revLe).map _) = _
          exact sorted_nums_snoc s.revisions a₀.id (n + 1)
            ⟨s.nextRevisionId, a₀.id, maxRevNum s a₀.id + 1, v⟩
            hsort (by simp) (by simp [hmax])
        · show ((((s.revisions ++ _).filter _).map _).foldr Nat.max 0) = _
          exact max_nums_snoc s.revisions a₀.id (n + 1)
            ⟨s.nextRevisionId, a₀.id, maxRevNum s a₀.id + 1, v⟩
            hsort (by simp) (by simp [hmax])
        · show maxRevNum s a₀.id + 1 = n + 1 + 1
          rw [hmax]
      · rw [hres]
        show maxRevNum s a₀.id + 1 = n + 1 + 1
        rw [hmax]

/-- Master induction: running any call list preserves wellformedness and
advances a triple's invariant by the number of successful calls to that
triple. -/
theorem runCalls_inv (validate : ArtifactType → Nat → Option Nat) (pid : Nat)
    (ty : ArtifactType) (nm : Nat) :
    ∀ (calls : List UpsertParams) (s : Store) (n : Nat), StoreWF s →
      TripleInv s pid ty nm n →
      StoreWF (runCalls validate s calls) ∧
        TripleInv (runCalls validate s calls) pid ty nm
          (n + successCount validate s calls pid ty nm) := by
  intro calls
  induction calls with
  | nil =>
    intro s n hwf hinv
    exact ⟨hwf, by simpa [runCalls, successCount] using hinv⟩
  | cons c rest ih =>
    intro s n hwf hinv
    cases hc : upsertArtifact validate s c with
    | none =>
      have hrun : runCalls validate s (c :: rest)
          = runCalls validate s rest := by
        simp [runCalls, hc]
      have hcnt : successCount validate s (c :: rest) pid ty nm
          = successCount validate s rest pid ty nm := by
        simp [successCount, hc]
      rw [hrun, hcnt]
      exact ih s n hwf hinv
    | some pr =>
      obtain ⟨s₁, res⟩ := pr
      have hrun : runCalls validate s (c :: rest)
          = runCalls validate s₁ rest := by
        simp [runCalls, hc]
      have hwf₁ := upsert_wf validate hwf hc
      by_cases hsame : c.projectId = pid ∧ c.type = ty ∧ c.name = nm
      · obtain ⟨h1, h2, h3⟩ := hsame
        have hinv' : TripleInv s c.projectId c.type c.name n := by
          rw [h1, h2, h3]
          exact hinv
        have hstep := upsert_advances_tripleInv validate hwf hc hinv'
        have hinv₁ : TripleInv s₁ pid ty nm (n + 1) := by
          rw [← h1, ← h2, ← h3]
          exact hstep.1
        have hcnt : successCount validate s (c :: rest) pid ty nm
            = 1 + successCount validate s₁ rest pid ty nm := by
          simp [successCount, hc, h1, h2, h3]
        rw [hrun, hcnt]
        have hfin := ih s₁ (n + 1) hwf₁ hinv₁
        rwa [show n + (1 + successCount validate s₁ rest pid ty nm)
          = n + 1 + successCount validate s₁ rest pid ty nm by omega]
      · have hinv₁ := upsert_preserves_tripleInv validate hwf hc pid ty nm n
          hsame hinv
        have hcnt : successCount validate s (c :: rest) pid ty nm
            = successCount validate s₁ rest pid ty nm := by
          simp [successCount, hc, hsame]
        rw [hrun, hcnt]
        exact ih s₁ n hwf₁ hinv₁

/-- C6 (amended): a successful `upsertArtifact` appends exactly one new
revision row carrying the validated payload (all existing revision rows are
preserved unchanged), leaves the project table unchanged, and either appends
exactly one new artifact row (create branch) or rewrites exactly the target
artifact, changing only its `schemaVersion` (set to the call's value) and its
current-revision pointer (append branch); every other artifact row is
unchanged. -/
theorem upsertArtifact_frame (validate : ArtifactType → Nat → Option Nat)
    (s : Store) (p : UpsertParams) (s' : Store) (res : UpsertResult)
    (hwf : StoreWF s) (h : upsertArtifact validate s p = some (s', res)) :
    ∃ v : Nat, validate p.type p.payload = some v ∧
      s'.projects = s.projects ∧
      (∃ rev : ArtifactRevision,
        s'.revisions = s.revisions ++ [rev] ∧ rev.payload = v) ∧
      ((findArtifact s p.projectId p.type p.name = none ∧
          s'.artifacts = s.artifacts ++
            [⟨s.nextArtifactId, p.projectId, p.type, p.name, p.schemaVersion,
              some s.nextRevisionId⟩]) ∨
        (∃ a, findArtifact s p.projectId p.type p.name = some a ∧
          s'.artifacts = s.artifacts.map fun x =>
            if x.id == a.id then
              { x with schemaVersion := p.schemaVersion,
                       currentRevisionId := some s.nextRevisionId }
            else x)) := by
  unfold upsertArtifact at h
  split at h
  case isFalse => exact absurd h (by simp)
  case isTrue hproj =>
  cases hv : validate p.type p.payload with
  | none => rw [hv] at h; exact absurd h (by simp)
  | some v =>
  rw [hv] at h
  cases hfind : findArtifact s p.projectId p.type p.name with
  | none =>
    rw [hfind] at h
    simp only [Option.some.injEq, Prod.mk.injEq] at h
    obtain ⟨hs, _⟩ := h
    subst hs
    refine ⟨v, rfl, rfl, ⟨⟨s.nextRevisionId, s.nextArtifactId, 1, v⟩, rfl, rfl⟩,
      Or.inl ⟨rfl, ?_⟩⟩
    have h1 : ∀ l : List Artifact, (∀ a ∈ l, a.id < s.nextArtifactId) →
        l.map (fun a => if a.id == s.nextArtifactId then
          { a with currentRevisionId := some s.nextRevisionId } else a) = l := by
      intro l
      induction l with
      | nil => intro _; rfl
      | cons x xs ih =>
        intro hlt
        have hx : (x.id == s.nextArtifactId) = false := by
          have := hlt x (List.mem_cons_self x xs)
          simp [Nat.ne_of_lt this]
        simp only [List.map_cons, hx, Bool.false_eq_true, if_false,
          ih (fun a ha => hlt a (List.mem_cons_of_mem _ ha))]
    dsimp only
    rw [List.map_append, h1 s.artifacts hwf.artIdLt]
    simp
  | some a =>
    rw [hfind] at h
    simp only [Option.some.injEq, Prod.mk.injEq] at h
    obtain ⟨hs, _⟩ := h
    subst hs
    exact ⟨v, rfl, rfl,
      ⟨⟨s.nextRevisionId, a.id, maxRevNum s a.id + 1, v⟩, rfl, rfl⟩,
      Or.inr ⟨a, rfl, rfl⟩⟩

/-- Witness for the amended frame property: the first upsert on the fresh
store. -/
theorem upsertArtifact_frame_witness :
    StoreWF store0 ∧
    (∃ v : Nat, idValidate call1.type call1.payload = some v ∧
      store1.projects = store0.projects ∧
      (∃ rev : ArtifactRevision,
        store1.revisions = store0.revisions ++ [rev] ∧ rev.payload = v) ∧
      ((findArtifact store0 call1.projectId call1.type call1.name = none ∧
          store1.artifacts = store0.artifacts ++
            [⟨store0.nextArtifactId, call1.projectId, call1.type, call1.name,
              call1.schemaVersion, some store0.nextRevisionId⟩]) ∨
        (∃ a, findArtifact store0 call1.projectId call1.type call1.name
            = some a ∧
          store1.artifacts = store0.artifacts.map fun x =>
            if x.id == a.id then
              { x with schemaVersion := call1.schemaVersion,
                       currentRevisionId := some store0.nextRevisionId }
            else x))) :=
  ⟨storeWF_store0,
    upsertArtifact_frame idValidate store0 call1 store1
      ⟨0, .style_profile, 0, 1, 1⟩ storeWF_store0 (by decide)⟩

/-- C6 counterexample: the second upsert to the same triple succeeds and
changes the stored artifact's `schemaVersion` from 1 to 2 — a modification of
an existing artifact field other than the current-revision pointer, so "the
only modification of existing stored state is one pointer field" is false. -/
theorem upsertArtifact_frame_counterexample :
    (upsertArtifact idValidate store1 call2).isSome = true
    ∧ Option.map (fun a => a.schemaVersion)
        (findArtifact store1 0 .style_profile 0) = some 1
    ∧ Option.map (fun a => a.schemaVersion)
        (findArtifact store2 0 .style_profile 0) = some 2 := by
  decide

/-- C8 (amended): for every interleaving of two concurrent `upsertArtifact`
calls to the same fresh triple, the store ends with either exactly revisions
`[1, 2]` (both calls succeeded, serialized) or exactly `[1]` (the loser
aborted on a unique constraint and failed — the source does not retry);
never two revisions numbered 1; the current pointer ends on the highest
revision written. -/
theorem upsertArtifact_store_isolation
    (validate : ArtifactType → Nat → Option Nat) (ty : ArtifactType)
    (nm svA svB payA payB vA vB : Nat)
    (hA : validate ty payA = some vA) (hB : validate ty payB = some vB) :
    ∀ sched ∈ twoCallSchedules,
      isolationOutcome
        (runSched validate ⟨[0], [], [], 0, 0⟩
          ⟨⟨0, ty, nm, svA, payA⟩, .start⟩
          ⟨⟨0, ty, nm, svB, payB⟩, .start⟩ sched) ty nm := by
  intro sched hsched
  have readA : upStep validate ⟨[0], [], [], 0, 0⟩
      ⟨⟨0, ty, nm, svA, payA⟩, .start⟩
      = (⟨[0], [], [], 0, 0⟩, ⟨⟨0, ty, nm, svA, payA⟩, .readDone vA none⟩) := by
    simp [upStep, hA, findArtifact]
  have readB : upStep validate ⟨[0], [], [], 0, 0⟩
      ⟨⟨0, ty, nm, svB, payB⟩, .start⟩
      = (⟨[0], [], [], 0, 0⟩, ⟨⟨0, ty, nm, svB, payB⟩, .readDone vB none⟩) := by
    simp [upStep, hB, findArtifact]
  have txA1 : upStep validate ⟨[0], [], [], 0, 0⟩
      ⟨⟨0, ty, nm, svA, payA⟩, .readDone vA none⟩
      = (⟨[0], [⟨0, 0, ty, nm, svA, some 0⟩], [⟨0, 0, 1, vA⟩], 1, 1⟩,
          ⟨⟨0, ty, nm, svA, payA⟩, .finished true⟩) := by
    simp [upStep, findArtifact]
  have txB1 : upStep validate ⟨[0], [], [], 0, 0⟩
      ⟨⟨0, ty, nm, svB, payB⟩, .readDone vB none⟩
      = (⟨[0], [⟨0, 0, ty, nm, svB, some 0⟩], [⟨0, 0, 1, vB⟩], 1, 1⟩,
          ⟨⟨0, ty, nm, svB, payB⟩, .finished true⟩) := by
    simp [upStep, findArtifact]
  have readB2 : upStep validate
      ⟨[0], [⟨0, 0, ty, nm, svA, some 0⟩], [⟨0, 0, 1, vA⟩], 1, 1⟩
      ⟨⟨0, ty, nm, svB, payB⟩, .start⟩
      = (⟨[0], [⟨0, 0, ty, nm, svA, some 0⟩], [⟨0, 0, 1, vA⟩], 1, 1⟩,
          ⟨⟨0, ty, nm, svB, payB⟩,
            .readDone vB (some (⟨0, 0, ty, nm, svA, some 0⟩, 1))⟩) := by
    simp [upStep, hB, findArtifact, maxRevNum]
  have readA2 : upStep validate
      ⟨[0], [⟨0, 0, ty, nm, svB, some 0⟩], [⟨0, 0, 1, vB⟩], 1, 1⟩
      ⟨⟨0, ty, nm, svA, payA⟩, .start⟩
      = (⟨[0], [⟨0, 0, ty, nm, svB, some 0⟩], [⟨0, 0, 1, vB⟩], 1, 1⟩,
          ⟨⟨0, ty, nm, svA, payA⟩,
            .readDone vA (some (⟨0, 0, ty, nm, svB, some 0⟩, 1))⟩) := by
    simp [upStep, hA, findArtifact, maxRevNum]
  have txB2 : upStep validate
      ⟨[0], [⟨0, 0, ty, nm, svA, some 0⟩], [⟨0, 0, 1, vA⟩], 1, 1⟩
      ⟨⟨0, ty, nm, svB, payB⟩,
        .readDone vB (some (⟨0, 0, ty, nm, svA, some 0⟩, 1))⟩
      = (⟨[0], [⟨0, 0, ty, nm, svB, some 1⟩], [⟨0, 0, 1, vA⟩, ⟨1, 0, 2, vB⟩],
            1, 2⟩,
          ⟨⟨0, ty, nm, svB, payB⟩, .finished true⟩) := by
    simp [upStep]
  have txA2 : upStep validate
      ⟨[0], [⟨0, 0, ty, nm, svB, some 0⟩], [⟨0, 0, 1, vB⟩], 1, 1⟩
      ⟨⟨0, ty, nm, svA, payA⟩,
        .readDone vA (some (⟨0, 0, ty, nm, svB, some 0⟩, 1))⟩
      = (⟨[0], [⟨0, 0, ty, nm, svA, some 1⟩], [⟨0, 0, 1, vB⟩, ⟨1, 0, 2, vA⟩],
            1, 2⟩,
          ⟨⟨0, ty, nm, svA, payA⟩, .finished true⟩) := by
    simp [upStep]
  have txAfail : upStep validate
      ⟨[0], [⟨0, 0, ty, nm, svB, some 0⟩], [⟨0, 0, 1, vB⟩], 1, 1⟩
      ⟨⟨0, ty, nm, svA, payA⟩, .readDone vA none⟩
      = (⟨[0], [⟨0, 0, ty, nm, svB, some 0⟩], [⟨0, 0, 1, vB⟩], 1, 1⟩,
          ⟨⟨0, ty, nm, svA, payA⟩, .finished false⟩) := by
    simp [upStep, findArtifact]
  have txBfail : upStep validate
      ⟨[0], [⟨0, 0, ty, nm, svA, some 0⟩], [⟨0, 0, 1, vA⟩], 1, 1⟩
      ⟨⟨0, ty, nm, svB, payB⟩, .readDone vB none⟩
      = (⟨[0], [⟨0, 0, ty, nm, svA, some 0⟩], [⟨0, 0, 1, vA⟩], 1, 1⟩,
          ⟨⟨0, ty, nm, svB, payB⟩, .finished false⟩) := by
    simp [upStep, findArtifact]
  have outSerialAB :
      tripleRevNums (⟨[0], [⟨0, 0, ty, nm, svB, some 1⟩],
        [⟨0, 0, 1, vA⟩, ⟨1, 0, 2, vB⟩], 1, 2⟩ : Store) 0 ty nm = [1, 2] := by
    simp [tripleRevNums, findArtifact, List.insertionSort, List.orderedInsert,
      revLe]
  have outSerialBA :
      tripleRevNums (⟨[0], [⟨0, 0, ty, nm, svA, some 1⟩],
        [⟨0, 0, 1, vB⟩, ⟨1, 0, 2, vA⟩], 1, 2⟩ : Store) 0 ty nm = [1, 2] := by
    simp [tripleRevNums, findArtifact, List.insertionSort, List.orderedInsert,
      revLe]
  have outLoneA :
      tripleRevNums (⟨[0], [⟨0, 0, ty, nm, svA, some 0⟩], [⟨0, 0, 1, vA⟩],
        1, 1⟩ : Store) 0 ty nm = [1] := by
    simp [tripleRevNums, findArtifact, List.insertionSort, List.orderedInsert]
  have outLoneB :
      tripleRevNums (⟨[0], [⟨0, 0, ty, nm, svB, some 0⟩], [⟨0, 0, 1, vB⟩],
        1, 1⟩ : Store) 0 ty nm = [1] := by
    simp [tripleRevNums, findArtifact, List.insertionSort, List.orderedInsert]
  have ptrAB : pointerAt (⟨[0], [⟨0, 0, ty, nm, svB, some 1⟩],
      [⟨0, 0, 1, vA⟩, ⟨1, 0, 2, vB⟩], 1, 2⟩ : Store) 0 ty nm 2 :=
    ⟨⟨0, 0, ty, nm, svB, some 1⟩, by simp [findArtifact], ⟨1, 0, 2, vB⟩,
      by simp, rfl, rfl, rfl⟩
  have ptrBA : pointerAt (⟨[0], [⟨0, 0, ty, nm, svA, some 1⟩],
      [⟨0, 0, 1, vB⟩, ⟨1, 0, 2, vA⟩], 1, 2⟩ : Store) 0 ty nm 2 :=
    ⟨⟨0, 0, ty, nm, svA, some 1⟩, by simp [findArtifact], ⟨1, 0, 2, vA⟩,
      by simp, rfl, rfl, rfl⟩
  have ptrA : pointerAt (⟨[0], [⟨0, 0, ty, nm, svA, some 0⟩], [⟨0, 0, 1, vA⟩],
      1, 1⟩ : Store) 0 ty nm 1 :=
    ⟨⟨0, 0, ty, nm, svA, some 0⟩, by simp [findArtifact], ⟨0, 0, 1, vA⟩,
      by simp, rfl, rfl, rfl⟩
  have ptrB : pointerAt (⟨[0], [⟨0, 0, ty, nm, svB, some 0⟩], [⟨0, 0, 1, vB⟩],
      1, 1⟩ : Store) 0 ty nm 1 :=
    ⟨⟨0, 0, ty, nm, svB, some 0⟩, by simp [findArtifact], ⟨0, 0, 1, vB⟩,
      by simp, rfl, rfl, rfl⟩
  simp only [twoCallSchedules, List.mem_cons, List.not_mem_nil, or_false]
    at hsched
  rcases hsched with h | h | h | h | h | h <;> subst h
  · simp only [runSched, readA, txA1, readB2, txB2]
    exact Or.inl ⟨outSerialAB, rfl, rfl, ptrAB⟩
  · simp only [runSched, readA, readB, txA1, txBfail]
    exact Or.inr ⟨outLoneA, by simp [UpCall.ok], ptrA⟩
  · simp only [runSched, readA, readB, txB1, txAfail]
    exact Or.inr ⟨outLoneB, by simp [UpCall.ok], ptrB⟩
  · simp only [runSched, readA, readB, txA1, txBfail]
    exact Or.inr ⟨outLoneA, by simp [UpCall.ok], ptrA⟩
  · simp only [runSched, readA, readB, txB1, txAfail]
    exact Or.inr ⟨outLoneB, by simp [UpCall.ok], ptrB⟩
  · simp only [runSched, readB, txB1, readA2, txA2]
    exact Or.inl ⟨outSerialBA, rfl, rfl, ptrBA⟩

/-- Witness for the amended isolation theorem: the serial schedule on
concrete calls. -/
theorem upsertArtifact_store_isolation_witness :
    idValidate ArtifactType.style_profile 10 = some 10 ∧
    idValidate ArtifactType.style_profile 20 = some 20 ∧
    ([true, true, false, false] ∈ twoCallSchedules) ∧
    isolationOutcome
      (runSched idValidate ⟨[0], [], [], 0, 0⟩ concA concB
        [true, true, false, false]) ArtifactType.style_profile 0 :=
  ⟨rfl, rfl, by decide,
    upsertArtifact_store_isolation idValidate ArtifactType.style_profile
      0 1 1 10 20 10 20 rfl rfl [true, true, false, false] (by decide)⟩

/-- C8 counterexample: under the racing schedule (both calls read before
either commits) the loser's create transaction aborts on the unique triple
constraint, so the run ends with exactly one revision, numbered 1 — not the
two revisions `[1, 2]` the claim demands of every concurrent execution. -/
theorem upsertArtifact_store_isolation_counterexample :
    tripleRevNums
        (runSched idValidate ⟨[0], [], [], 0, 0⟩ concA concB racingSched).1
        0 ArtifactType.style_profile 0 = [1]
    ∧ (runSched idValidate ⟨[0], [], [], 0, 0⟩ concA concB
        racingSched).2.1.ok = true
    ∧ (runSched idValidate ⟨[0], [], [], 0, 0⟩ concA concB
        racingSched).2.2.ok = false
    ∧ ([1] : List Nat) ≠ [1, 2] := by
  refine ⟨by decide, by decide, by decide, by decide⟩

/-- C1: revision monotonicity.  Starting from any wellformed store in which
a triple has no artifact, run any sequence of upsert calls (to this and any
other triples).  If at least one call to the triple succeeded, then
`listArtifactRevisions` for the triple returns exactly the ascending list
`1..N` where `N` is the number of successful upserts to the triple — no
gaps, no duplicates, no reused numbers. -/
theorem listArtifactRevisions_monotonic
    (validate : ArtifactType → Nat → Option Nat) (s : Store)
    (calls : List UpsertParams) (pid : Nat) (ty : ArtifactType) (nm : Nat)
    (hwf : StoreWF s) (hfresh : findArtifact s pid ty nm = none)
    (hpos : 1 ≤ successCount validate s calls pid ty nm) :
    listArtifactRevisions (runCalls validate s calls) pid ty nm
      = some (List.range' 1 (successCount validate s calls pid ty nm)) := by
  have hinv0 : TripleInv s pid ty nm 0 := hfresh
  obtain ⟨hwf', hinv⟩ := runCalls_inv validate pid ty nm calls s 0 hwf hinv0
  rw [Nat.zero_add] at hinv
  cases hk : successCount validate s calls pid ty nm with
  | zero => omega
  | succ k =>
    rw [hk] at hinv
    obtain ⟨hp, a, hfind, hsort, _⟩ := hinv
    show (if pid ∈ (runCalls validate s calls).projects then _ else _) = _
    rw [if_pos hp]
    simp only [hfind]
    exact congrArg some hsort

/-- Witness for revision monotonicity: two successful upserts on a fresh
store give revisions `[1, 2]`. -/
theorem listArtifactRevisions_monotonic_witness :
    StoreWF store0 ∧
    findArtifact store0 0 ArtifactType.style_profile 0 = none ∧
    1 ≤ successCount idValidate store0 [call1, call2] 0
      ArtifactType.style_profile 0 ∧
    listArtifactRevisions (runCalls idValidate store0 [call1, call2]) 0
        ArtifactType.style_profile 0
      = some (List.range' 1 (successCount idValidate store0 [call1, call2] 0
          ArtifactType.style_profile 0)) :=
  ⟨storeWF_store0, by decide, by decide,
    listArtifactRevisions_monotonic idValidate store0 [call1, call2] 0
      ArtifactType.style_profile 0 storeWF_store0 (by decide) (by decide)⟩

/-- C2: current pointer correctness.  After any successful upsert from any
wellformed store, `getArtifactLatest` on the triple returns exactly the
payload stored by that call (the validated payload) together with the newly
assigned revision number reported by the call; since this holds after every
upsert of a sequence, the latest read never returns an earlier revision's
payload. -/
theorem getArtifactLatest_returns_latest
    (validate : ArtifactType → Nat → Option Nat) {s : Store}
    {p : UpsertParams} {s' : Store} {res : UpsertResult} (hwf : StoreWF s)
    (h : upsertArtifact validate s p = some (s', res)) :
    ∃ v : Nat, validate p.type p.payload = some v ∧
      getArtifactLatest s' p.projectId p.type p.name
        = some ⟨res.artifact_id, p.type, p.name, res.schema_version,
            res.revision, v⟩ := by
  obtain ⟨v, hv, hproj, ⟨hfind, hs, hres⟩ | ⟨a, hfind, hs, hres⟩⟩ :=
    upsert_shape validate hwf h
  · subst hs
    subst hres
    refine ⟨v, hv, ?_⟩
    have hfa : List.find? (fun x : Artifact =>
        x.projectId == p.projectId && x.type == p.type && x.name == p.name)
        (s.artifacts ++ [⟨s.nextArtifactId, p.projectId, p.type, p.name,
          p.schemaVersion, some s.nextRevisionId⟩]) = some
        ⟨s.nextArtifactId, p.projectId, p.type, p.name, p.schemaVersion,
          some s.nextRevisionId⟩ := by
      rw [List.find?_append]
      have h0 : List.find? (fun x : Artifact =>
          x.projectId == p.projectId && x.type == p.type &&
            x.name == p.name) s.artifacts = none := hfind
      rw [h0]
      simp
    have hfr : List.find? (fun r : ArtifactRevision =>
        r.id == s.nextRevisionId)
        (s.revisions ++ [⟨s.nextRevisionId, s.nextArtifactId, 1, v⟩])
        = some ⟨s.nextRevisionId, s.nextArtifactId, 1, v⟩ := by
      rw [List.find?_append]
      have h0 : List.find? (fun r : ArtifactRevision =>
          r.id == s.nextRevisionId) s.revisions = none := by
        rw [List.find?_eq_none]
        intro r hr
        simp [Nat.ne_of_lt (hwf.revIdLt r hr)]
      rw [h0]
      simp
    show (if p.projectId ∈ s.projects then _ else _) = _
    rw [if_pos hproj]
    simp only [findArtifact, hfa, hfr]
  · subst hs
    subst hres
    refine ⟨v, hv, ?_⟩
    have hqf := updArt_match p.projectId p.type p.name a.id
      s.nextRevisionId p.schemaVersion
    have hfind' : List.find? (fun x : Artifact =>
        x.projectId == p.projectId && x.type == p.type &&
          x.name == p.name) s.artifacts = some a := hfind
    have hfa : List.find? (fun x : Artifact =>
        x.projectId == p.projectId && x.type == p.type && x.name == p.name)
        (s.artifacts.map fun x => if x.id == a.id then
          { x with schemaVersion := p.schemaVersion,
                   currentRevisionId := some s.nextRevisionId } else x)
        = some { a with schemaVersion := p.schemaVersion,
                        currentRevisionId := some s.nextRevisionId } := by
      rw [find?_map_pred _ _ hqf s.artifacts, hfind', Option.map_some']
      simp
    have hfr : List.find? (fun r : ArtifactRevision =>
        r.id == s.nextRevisionId)
        (s.revisions ++ [⟨s.nextRevisionId, a.id, maxRevNum s a.id + 1, v⟩])
        = some ⟨s.nextRevisionId, a.id, maxRevNum s a.id + 1, v⟩ := by
      rw [List.find?_append]
      have h0 : List.find? (fun r : ArtifactRevision =>
          r.id == s.nextRevisionId) s.revisions = none := by
        rw [List.find?_eq_none]
        intro r hr
        simp [Nat.ne_of_lt (hwf.revIdLt r hr)]
      rw [h0]
      simp
    have htriple := List.find?_some hfind'
    simp only [Bool.and_eq_true, beq_iff_eq] at htriple
    show (if p.projectId ∈ s.projects then _ else _) = _
    rw [if_pos hproj]
    simp only [findArtifact, hfa, hfr]
    exact congrArg some (by
      refine LatestResult.mk.injEq .. ▸ ⟨rfl, htriple.1.2, htriple.2, rfl,
        rfl, rfl⟩)

/-! ## Theorems about the analyzer and the de-AI engine -/

/-- C4 counterexample: on the empty string the analyzer reports the zero
counts the claim demands, but its readability is NOT undefined — the
`|| 1` guards make the Flesch computation finite (206.835 − 1.015·1 −
84.6·0 = 205.82), so `Number.isFinite` holds and a value is reported. -/
theorem analyzeProse_empty_counterexample :
    (analyzeProse (jstr "")).metrics.word_count = 0
    ∧ (analyzeProse (jstr "")).metrics.sentence_count = 0
    ∧ (analyzeProse (jstr "")).metrics.avg_sentence_words = 0
    ∧ (analyzeProse (jstr "")).metrics.readability_flesch ≠ none := by
  refine ⟨by decide, by decide, by decide, by decide⟩

/-- C4 (amended): `analyze("")` yields `word_count = 0`,
`sentence_count = 0`, `avg_sentence_words = 0` and a DEFINED readability of
exactly 205.82 (= 206.835 − 1.015·(1/1) − 84.6·(0/1), with the zero counts
replaced by 1 in the denominators); in general the guards keep the
computation finite, so the readability is reported for every input. -/
theorem analyzeProse_empty_amended :
    (analyzeProse (jstr "")).metrics.word_count = 0
    ∧ (analyzeProse (jstr "")).metrics.sentence_count = 0
    ∧ (analyzeProse (jstr "")).metrics.avg_sentence_words = 0
    ∧ (analyzeProse (jstr "")).metrics.readability_flesch
        = some ((10291 : ℚ) / 50)
    ∧ ∀ t : JStr, (analyzeProse t).metrics.readability_flesch
        = some (fleschReadingEase t) := by
  have h1 : wordsOf (jstr "") = [] := by decide
  have h2 : splitSentences (jstr "") = [] := by decide
  have h3 : fleschReadingEase (jstr "") = (10291 : ℚ) / 50 := by
    simp [fleschReadingEase, h1, h2]
    norm_num
  refine ⟨by decide, by decide, by decide, ?_, fun t => rfl⟩
  have hall : (analyzeProse (jstr "")).metrics.readability_flesch
      = some (fleschReadingEase (jstr "")) := rfl
  rw [hall, h3]

/-- The head of a list, when present, is a member. -/
theorem mem_of_head?_eq_some {α : Type} {l : List α} {a : α}
    (h : l.head? = some a) : a ∈ l := by
  cases l with
  | nil => simp at h
  | cons x xs =>
    simp only [List.head?_cons, Option.some.injEq] at h
    rw [← h]
    exact List.mem_cons_self x xs

/-- A position holding a code unit is inside the text. -/
theorem lt_length_of_charAt {t : JStr} {p : Nat} {c : Char}
    (h : charAt t p = some c) : p < t.length := by
  by_contra hge
  have : t.drop p = [] := List.drop_eq_nil_of_le (by omega)
  simp [charAt, this] at h

/-- A positive literal match stays inside the text. -/
theorem litMatch_le {ci : Bool} {t : JStr} {p : Nat} {w : JStr}
    (h : litMatch ci t p w = true) : p + w.length ≤ t.length := by
  have := (Bool.and_eq_true _ _ |>.mp h).2
  exact Nat.le_of_ble_eq_true this

/-- Every candidate match length of one matcher level stays inside the
text, provided the continuation does. -/
theorem mtchGo_bound (ci : Bool) (t : JStr) (recur : RE → Nat → List Nat)
    (hrec : ∀ re p, p ≤ t.length → ∀ l ∈ recur re p, p + l ≤ t.length) :
    ∀ re p, p ≤ t.length → ∀ l ∈ mtchGo ci t recur re p,
      p + l ≤ t.length := by
  intro re
  induction re with
  | eps =>
    intro p hp l hl
    simp only [mtchGo, List.mem_singleton] at hl
    omega
  | lit w =>
    intro p hp l hl
    by_cases hm : litMatch ci t p w
    · simp only [mtchGo, hm, if_true, List.mem_singleton] at hl
      subst hl
      exact litMatch_le hm
    · simp [mtchGo, hm] at hl
  | cls f =>
    intro p hp l hl
    cases hc : charAt t p with
    | none => simp [mtchGo, hc] at hl
    | some c =>
      simp only [mtchGo, hc] at hl
      by_cases ht : testCls ci f c
      · simp only [ht, if_true, List.mem_singleton] at hl
        subst hl
        exact lt_length_of_charAt hc
      · simp [ht] at hl
  | wordB =>
    intro p hp l hl
    by_cases hb : atWordBoundary t p
    · simp only [mtchGo, hb, if_true, List.mem_singleton] at hl
      omega
    · simp [mtchGo, hb] at hl
  | prevCls f =>
    intro p hp l hl
    match p, hl with
    | 0, hl => simp [mtchGo] at hl
    | q + 1, hl =>
      cases hc : charAt t q with
      | none => simp [mtchGo, hc] at hl
      | some c =>
        simp only [mtchGo, hc] at hl
        by_cases ht : testCls ci f c
        · simp only [ht, if_true, List.mem_singleton] at hl
          omega
        · simp [ht] at hl
  | nextCls f =>
    intro p hp l hl
    cases hc : charAt t p with
    | none => simp [mtchGo, hc] at hl
    | some c =>
      simp only [mtchGo, hc] at hl
      by_cases ht : testCls ci f c
      · simp only [ht, if_true, List.mem_singleton] at hl
        omega
      · simp [ht] at hl
  | seq a b iha ihb =>
    intro p hp l hl
    simp only [mtchGo, List.mem_flatMap, List.mem_map] at hl
    obtain ⟨la, hla, lb, hlb, rfl⟩ := hl
    have h1 := iha p hp la hla
    have h2 := ihb (p + la) h1 lb hlb
    omega
  | alt a b iha ihb =>
    intro p hp l hl
    rcases List.mem_append.mp hl with hl | hl
    · exact iha p hp l hl
    · exact ihb p hp l hl
  | star1 r ihr =>
    intro p hp l hl
    simp only [mtchGo, List.mem_flatMap] at hl
    obtain ⟨l1, hl1, hl⟩ := hl
    have h1 := ihr p hp l1 hl1
    by_cases h0 : l1 = 0
    · simp only [h0, if_true, List.mem_singleton] at hl
      omega
    · simp only [h0, if_false, List.mem_append, List.mem_map,
        List.mem_singleton] at hl
      rcases hl with ⟨l2, hl2, rfl⟩ | rfl
      · have h2 := hrec (.star1 r) (p + l1) h1 l2 hl2
        omega
      · exact h1

/-- Every candidate match length stays inside the text. -/
theorem mtch_bound (ci : Bool) (t : JStr) :
    ∀ fuel re p, p ≤ t.length → ∀ l ∈ mtch ci t fuel re p,
      p + l ≤ t.length := by
  intro fuel
  induction fuel with
  | zero =>
    intro re p hp l hl
    exact mtchGo_bound ci t _ (fun re p hp l hl => by simp at hl) re p hp l hl
  | succ f ih =>
    intro re p hp l hl
    exact mtchGo_bound ci t _ ih re p hp l hl

/-- The reported match length stays inside the text. -/
theorem matchLenAt_bound {ci : Bool} {re : RE} {t : JStr} {p l : Nat}
    (hp : p ≤ t.length) (h : matchLenAt ci re t p = some l) :
    p + l ≤ t.length :=
  mtch_bound ci t (t.length + 1) re p hp l (mem_of_head?_eq_some h)

/-- What a successful bounded scan reports: the first position at or after
`p` that holds a match. -/
theorem firstMatchFromAux_some (ci : Bool) (re : RE) (t : JStr) :
    ∀ fuel p q l, firstMatchFromAux ci re t p fuel = some (q, l) →
      p ≤ q ∧ q ≤ t.length ∧ matchLenAt ci re t q = some l ∧
        ∀ m, p ≤ m → m < q → matchLenAt ci re t m = none := by
  intro fuel
  induction fuel with
  | zero =>
    intro p q l h
    simp [firstMatchFromAux] at h
  | succ f ih =>
    intro p q l h
    by_cases hp : p ≤ t.length
    · simp only [firstMatchFromAux, hp, if_true] at h
      cases hm : matchLenAt ci re t p with
      | some l0 =>
        rw [hm] at h
        simp only [Option.some.injEq, Prod.mk.injEq] at h
        obtain ⟨rfl, rfl⟩ := h
        exact ⟨Nat.le_refl p, hp, hm, fun m h1 h2 => absurd h1 (by omega)⟩
      | none =>
        rw [hm] at h
        obtain ⟨h1, h2, h3, h4⟩ := ih (p + 1) q l h
        refine ⟨by omega, h2, h3, fun m hm1 hm2 => ?_⟩
        rcases Nat.eq_or_lt_of_le hm1 with rfl | hlt
        · exact hm
        · exact h4 m hlt hm2
    · simp [firstMatchFromAux, hp] at h

/-- What a failed bounded scan guarantees: no position in range holds a
match. -/
theorem firstMatchFromAux_none (ci : Bool) (re : RE) (t : JStr) :
    ∀ fuel p, t.length + 1 - p ≤ fuel →
      firstMatchFromAux ci re t p fuel = none →
      ∀ m, p ≤ m → m ≤ t.length → matchLenAt ci re t m = none := by
  intro fuel
  induction fuel with
  | zero =>
    intro p hfuel _ m h1 h2
    omega
  | succ f ih =>
    intro p hfuel h m h1 h2
    by_cases hp : p ≤ t.length
    · simp only [firstMatchFromAux, hp, if_true] at h
      cases hm : matchLenAt ci re t p with
      | some l0 => rw [hm] at h; exact absurd h (by simp)
      | none =>
        rw [hm] at h
        rcases Nat.eq_or_lt_of_le h1 with rfl | hlt
        · exact hm
        · exact ih (p + 1) (by omega) h m hlt h2
    · omega

/-- `firstMatchFrom` characterisation, positive case. -/
theorem firstMatchFrom_some {ci : Bool} {re : RE} {t : JStr} {p q l : Nat}
    (h : firstMatchFrom ci re t p = some (q, l)) :
    p ≤ q ∧ q ≤ t.length ∧ matchLenAt ci re t q = some l ∧
      ∀ m, p ≤ m → m < q → matchLenAt ci re t m = none :=
  firstMatchFromAux_some ci re t _ p q l h

/-- `firstMatchFrom` characterisation, negative case. -/
theorem firstMatchFrom_none {ci : Bool} {re : RE} {t : JStr} {p : Nat}
    (h : firstMatchFrom ci re t p = none) :
    ∀ m, p ≤ m → m ≤ t.length → matchLenAt ci re t m = none :=
  firstMatchFromAux_none ci re t _ p (Nat.le_refl _) h

/-- An exact occurrence of a nonempty needle fits inside the haystack. -/
theorem occAt_bound {fh fn : JStr} {p : Nat} (hne : fn ≠ [])
    (hocc : occAt fh fn p) : p + fn.length ≤ fh.length := by
  have hlen := congrArg List.length hocc
  simp only [List.length_take, List.length_drop] at hlen
  have h0 : fn.length ≠ 0 := fun h => hne (List.eq_nil_of_length_eq_zero h)
  omega

/-- A case-insensitive literal match is exactly an occurrence of the folded
needle in the folded haystack. -/
theorem litMatch_true_iff_occAt {hay needle : JStr} (hne : needle ≠ [])
    (p : Nat) :
    litMatch true hay p needle = true
      ↔ occAt (hay.map foldCase) (needle.map foldCase) p := by
  have hdef : litMatch true hay p needle
      = ((((hay.drop p).take needle.length).map foldCase
          == needle.map foldCase)
        && Nat.ble (p + needle.length) hay.length) := rfl
  have htd : ((hay.map foldCase).drop p).take (needle.map foldCase).length
      = ((hay.drop p).take needle.length).map foldCase := by
    rw [List.length_map, ← List.map_drop, ← List.map_take]
  rw [hdef, Bool.and_eq_true, beq_iff_eq]
  unfold occAt
  rw [htd]
  constructor
  · exact fun h => h.1
  · intro h
    have hfne : needle.map foldCase ≠ [] :=
      fun hc => hne (List.map_eq_nil.mp hc)
    have hocc : occAt (hay.map foldCase) (needle.map foldCase) p := by
      unfold occAt
      rw [htd]
      exact h
    have hb := occAt_bound hfne hocc
    rw [List.length_map, List.length_map] at hb
    exact ⟨h, Nat.ble_eq.mpr hb⟩

/-- The matcher on a bare literal, any fuel. -/
theorem mtch_lit (ci : Bool) (t : JStr) (fuel : Nat) (w : JStr) (p : Nat) :
    mtch ci t fuel (.lit w) p
      = if litMatch ci t p w then [w.length] else [] := by
  cases fuel <;> rfl

/-- The reported match length on a bare literal. -/
theorem matchLenAt_lit (ci : Bool) (w : JStr) (t : JStr) (p : Nat) :
    matchLenAt ci (.lit w) t p
      = if litMatch ci t p w then some w.length else none := by
  show (mtch ci t (t.length + 1) (.lit w) p).head? = _
  rw [mtch_lit]
  by_cases h : litMatch ci t p w <;> simp [h]

/-- `countDisjoint` skips a non-matching head. -/
theorem countDisjoint_cons_neg {n : JStr} {c : Char} {h : JStr}
    (hnp : ¬ (List.isPrefixOf n (c :: h) = true)) :
    countDisjoint n (c :: h) = countDisjoint n h := by
  rw [countDisjoint, if_neg]
  intro hc
  exact hnp hc.2

/-- `countDisjoint` consumes a matching head. -/
theorem countDisjoint_cons_pos {n : JStr} {c : Char} {h : JStr}
    (hne : n ≠ []) (hp : List.isPrefixOf n (c :: h) = true) :
    countDisjoint n (c :: h) = 1 + countDisjoint n ((c :: h).drop n.length) := by
  rw [countDisjoint, if_pos ⟨hne, hp⟩]

/-- Occurrence at a position is the prefix test after dropping. -/
theorem occAt_iff_isPrefixOf {fh fn : JStr} {p : Nat} :
    occAt fh fn p ↔ List.isPrefixOf fn (fh.drop p) = true := by
  rw [List.isPrefixOf_iff_prefix, List.prefix_iff_eq_take]
  unfold occAt
  constructor <;> exact fun h => h.symm

/-- Disjoint-count step over a position with no occurrence. -/
theorem countDisjoint_drop_no {fn fh : JStr} (hne : fn ≠ []) {p : Nat}
    (hp : p < fh.length) (hno : ¬ occAt fh fn p) :
    countDisjoint fn (fh.drop p) = countDisjoint fn (fh.drop (p + 1)) := by
  have hcons := List.drop_eq_getElem_cons hp
  rw [hcons]
  refine countDisjoint_cons_neg ?_
  intro hpre
  apply hno
  rw [occAt_iff_isPrefixOf, hcons]
  exact hpre

/-- Disjoint-count step over a position with an occurrence. -/
theorem countDisjoint_drop_yes {fn fh : JStr} (hne : fn ≠ []) {p : Nat}
    (hocc : occAt fh fn p) :
    countDisjoint fn (fh.drop p)
      = 1 + countDisjoint fn (fh.drop (p + fn.length)) := by
  have hb := occAt_bound hne hocc
  have hlp : 0 < fn.length := List.length_pos.mpr hne
  have hp : p < fh.length := by omega
  have hcons := List.drop_eq_getElem_cons hp
  have hpre : List.isPrefixOf fn (fh[p] :: fh.drop (p + 1)) = true := by
    rw [← hcons]
    exact occAt_iff_isPrefixOf.mp hocc
  rw [hcons, countDisjoint_cons_pos hne hpre, ← hcons, List.drop_drop]

/-- Disjoint-count is unchanged across an occurrence-free stretch. -/
theorem countDisjoint_drop_skip {fn fh : JStr} (hne : fn ≠ []) :
    ∀ d p, (∀ m, p ≤ m → m < p + d → ¬ occAt fh fn m) →
      countDisjoint fn (fh.drop p) = countDisjoint fn (fh.drop (p + d)) := by
  intro d
  induction d with
  | zero => intro p _; rfl
  | succ d ih =>
    intro p hno
    by_cases hp : p < fh.length
    · rw [countDisjoint_drop_no hne hp (hno p (Nat.le_refl p) (by omega))]
      have harg : p + 1 + d = p + (d + 1) := by omega
      have := ih (p + 1) (fun m h1 h2 => hno m (by omega) (by omega))
      rw [harg] at this
      exact this
    · have h1 : fh.drop p = [] := List.drop_eq_nil_of_le (by omega)
      have h2 : fh.drop (p + (d + 1)) = [] := List.drop_eq_nil_of_le (by omega)
      rw [h1, h2]

/-- Disjoint-count vanishes when no occurrence remains. -/
theorem countDisjoint_drop_none {fn fh : JStr} (hne : fn ≠ []) {p : Nat}
    (hno : ∀ m, p ≤ m → ¬ occAt fh fn m) :
    countDisjoint fn (fh.drop p) = 0 := by
  have hs := countDisjoint_drop_skip hne (fh.length + 1 - p) p
    (fun m h1 _ => hno m h1)
  rw [hs]
  have h2 : fh.drop (p + (fh.length + 1 - p)) = [] :=
    List.drop_eq_nil_of_le (by omega)
  rw [h2]
  simp [countDisjoint]

/-- The global literal match count is the disjoint-occurrence count of the
folded needle in the folded haystack. -/
theorem matchAllAux_lit_length (hay needle : JStr) (hne : needle ≠ []) :
    ∀ fuel p, hay.length + 1 - p ≤ fuel →
      (matchAllAux true (.lit needle) hay p fuel).length
        = countDisjoint (needle.map foldCase)
            ((hay.map foldCase).drop p) := by
  have hfne : needle.map foldCase ≠ [] :=
    fun hc => hne (List.map_eq_nil.mp hc)
  have hlpos : 0 < needle.length := List.length_pos.mpr hne
  intro fuel
  induction fuel with
  | zero =>
    intro p hp
    have h1 : (hay.map foldCase).drop p = [] :=
      List.drop_eq_nil_of_le (by rw [List.length_map]; omega)
    rw [h1]
    simp [matchAllAux, countDisjoint]
  | succ f ih =>
    intro p hp
    cases hfm : firstMatchFrom true (.lit needle) hay p with
    | none =>
      have hnone := firstMatchFrom_none hfm
      have hno : ∀ m, p ≤ m →
          ¬ occAt (hay.map foldCase) (needle.map foldCase) m := by
        intro m h1 hocc
        by_cases h2 : m ≤ hay.length
        · have hm := hnone m h1 h2
          rw [matchLenAt_lit] at hm
          by_cases hl : litMatch true hay m needle
          · simp [hl] at hm
          · exact hl ((litMatch_true_iff_occAt hne m).mpr hocc)
        · have hb := occAt_bound hfne hocc
          rw [List.length_map, List.length_map] at hb
          omega
      rw [countDisjoint_drop_none hfne hno]
      simp [matchAllAux, hfm]
    | some ql =>
      obtain ⟨q, l⟩ := ql
      obtain ⟨hpq, hqlen, hml, hmin⟩ := firstMatchFrom_some hfm
      rw [matchLenAt_lit] at hml
      by_cases hl : litMatch true hay q needle
      · have hleq : l = needle.length := by
          rw [if_pos hl] at hml
          injection hml with hml
          exact hml.symm
        have hocc : occAt (hay.map foldCase) (needle.map foldCase) q :=
          (litMatch_true_iff_occAt hne q).mp hl
        have hnoPQ : ∀ m, p ≤ m → m < p + (q - p) →
            ¬ occAt (hay.map foldCase) (needle.map foldCase) m := by
          intro m h1 h2 hocc2
          have hm := hmin m h1 (by omega)
          rw [matchLenAt_lit] at hm
          by_cases hl2 : litMatch true hay m needle
          · simp [hl2] at hm
          · exact hl2 ((litMatch_true_iff_occAt hne m).mpr hocc2)
        have hskip := countDisjoint_drop_skip hfne (q - p) p hnoPQ
        have harg : p + (q - p) = q := by omega
        rw [harg] at hskip
        have hyes := countDisjoint_drop_yes hfne hocc
        rw [List.length_map] at hyes
        have hlne0 : ¬ (l = 0) := by omega
        have hih := ih (q + l) (by omega)
        simp only [matchAllAux, hfm, if_neg hlne0, List.length_cons]
        rw [hih, hskip, hyes, hleq]
        omega
      · rw [if_neg hl] at hml
        exact absurd hml (by simp)

/-- The source's substring counter equals the case-insensitive
disjoint-occurrence count, for every nonempty needle. -/
theorem countOccurrences_eq_substrCountCI (hay needle : JStr)
    (hne : needle ≠ []) :
    countOccurrences hay needle = substrCountCI hay needle := by
  unfold countOccurrences
  rw [if_neg hne]
  show (matchAllAux true (.lit needle) hay 0 (hay.length + 2)).length = _
  rw [matchAllAux_lit_length hay needle hne (hay.length + 2) 0 (by omega)]
  simp [substrCountCI]

/-- C5 counterexample: the source counts case-insensitive SUBSTRING
occurrences (no word boundaries in the regex), so the vague word `very`
inside `every` is counted: the analyzer reports 1 where the claimed
whole-word sum is 0. -/
theorem vague_count_counterexample :
    (analyzeProse (jstr "every")).metrics.vague_word_count = 1
    ∧ (VAGUE_WORDS_PROSE.map fun w =>
        specWholeWordCount (jstr "every") (jstr w)).sum = 0
    ∧ (1 : Nat) ≠ 0 :=
  ⟨by decide, by decide, by decide⟩

/-- C5 (amended): for every text, `vague_word_count` (resp.
`filler_phrase_count`) is the sum over the lexicon of case-insensitive
leftmost-disjoint SUBSTRING occurrence counts — not whole-word counts:
occurrences inside longer words are counted. -/
theorem vague_filler_counts_are_substring_counts (t : JStr) :
    (analyzeProse t).metrics.vague_word_count
      = (VAGUE_WORDS_PROSE.map fun w => substrCountCI t (jstr w)).sum
    ∧ (analyzeProse t).metrics.filler_phrase_count
      = (FILLER_PHRASES.map fun w => substrCountCI t w).sum := by
  have hv : ∀ w ∈ VAGUE_WORDS_PROSE, jstr w ≠ [] := by decide
  have hf : ∀ w ∈ FILLER_PHRASES, w ≠ [] := by decide
  constructor
  · have hc : (analyzeProse t).metrics.vague_word_count
        = (VAGUE_WORDS_PROSE.map fun w => countOccurrences t (jstr w)).sum :=
      rfl
    rw [hc]
    congr 1
    exact List.map_congr_left fun w hw =>
      countOccurrences_eq_substrCountCI t (jstr w) (hv w hw)
  · have hc : (analyzeProse t).metrics.filler_phrase_count
        = (FILLER_PHRASES.map fun w => countOccurrences t w).sum := rfl
    rw [hc]
    congr 1
    exact List.map_congr_left fun w hw =>
      countOccurrences_eq_substrCountCI t w (hf w hw)

/-- Lowercasing a code unit yields at least one unit. -/
theorem jsLowerChar_length_pos (c : Char) : 1 ≤ (jsLowerChar c).length := by
  unfold jsLowerChar
  split
  · simp
  · split
    · simp
    · split <;> simp

/-- When every code unit lowercases to a single unit, `toLowerCase`
preserves the length. -/
theorem jsToLower_length_eq {t : JStr}
    (h : ∀ c ∈ t, (jsLowerChar c).length = 1) :
    (jsToLower t).length = t.length := by
  induction t with
  | nil => rfl
  | cons c rest ih =>
    show (jsLowerChar c ++ jsToLower rest).length = rest.length + 1
    rw [List.length_append, h c (List.mem_cons_self c rest),
      ih (fun x hx => h x (List.mem_cons_of_mem c hx))]
    omega

/-- `toLowerCase` never shortens a string. -/
theorem jsToLower_length_ge (t : JStr) : t.length ≤ (jsToLower t).length := by
  induction t with
  | nil => exact Nat.le_refl 0
  | cons c rest ih =>
    show rest.length + 1 ≤ (jsLowerChar c ++ jsToLower rest).length
    rw [List.length_append]
    have := jsLowerChar_length_pos c
    omega

/-- What a successful `indexOf` scan reports: the first in-bounds occurrence
at or after the start. -/
theorem jsIndexOfAux_some (hay needle : JStr) :
    ∀ fuel p found, jsIndexOfAux hay needle p fuel = some found →
      p ≤ found ∧ found + needle.length ≤ hay.length ∧
        occAt hay needle found ∧
        ∀ m, p ≤ m → m < found →
          ¬ (occAt hay needle m ∧ m + needle.length ≤ hay.length) := by
  intro fuel
  induction fuel with
  | zero => intro p found h; simp [jsIndexOfAux] at h
  | succ f ih =>
    intro p found h
    by_cases hb : p + needle.length ≤ hay.length
    · simp only [jsIndexOfAux, if_pos hb] at h
      by_cases heq : ((hay.drop p).take needle.length == needle) = true
      · rw [if_pos heq] at h
        injection h with h
        subst h
        exact ⟨Nat.le_refl p, hb, beq_iff_eq.mp heq,
          fun m h1 h2 => absurd h1 (by omega)⟩
      · rw [if_neg heq] at h
        obtain ⟨h1, h2, h3, h4⟩ := ih (p + 1) found h
        refine ⟨by omega, h2, h3, fun m hm1 hm2 => ?_⟩
        rcases Nat.eq_or_lt_of_le hm1 with rfl | hlt
        · intro hc
          exact heq (beq_iff_eq.mpr hc.1)
        · exact h4 m hlt hm2
    · simp [jsIndexOfAux, hb] at h

/-- What a failed `indexOf` scan guarantees: no in-bounds occurrence at or
after the start. -/
theorem jsIndexOfAux_none (hay needle : JStr) :
    ∀ fuel p, hay.length + 1 - p ≤ fuel →
      jsIndexOfAux hay needle p fuel = none →
      ∀ m, p ≤ m →
        ¬ (occAt hay needle m ∧ m + needle.length ≤ hay.length) := by
  intro fuel
  induction fuel with
  | zero =>
    intro p hfuel _ m h1 hc
    exact absurd hc.2 (by omega)
  | succ f ih =>
    intro p hfuel h m h1
    by_cases hb : p + needle.length ≤ hay.length
    · simp only [jsIndexOfAux, if_pos hb] at h
      by_cases heq : ((hay.drop p).take needle.length == needle) = true
      · rw [if_pos heq] at h
        exact absurd h (by simp)
      · rw [if_neg heq] at h
        rcases Nat.eq_or_lt_of_le h1 with rfl | hlt
        · intro hc
          exact heq (beq_iff_eq.mpr hc.1)
        · exact ih (p + 1) (by omega) h m hlt
    · intro hc
      exact hb (by omega)

/-- `indexOf` characterisation, positive case. -/
theorem jsIndexOfFrom_some {hay needle : JStr} {start found : Nat}
    (h : jsIndexOfFrom hay needle start = some found) :
    start ≤ found ∧ found + needle.length ≤ hay.length ∧
      occAt hay needle found ∧
      ∀ m, start ≤ m → m < found →
        ¬ (occAt hay needle m ∧ m + needle.length ≤ hay.length) :=
  jsIndexOfAux_some hay needle _ start found h

/-- `indexOf` characterisation, negative case. -/
theorem jsIndexOfFrom_none {hay needle : JStr} {start : Nat}
    (h : jsIndexOfFrom hay needle start = none) :
    ∀ m, start ≤ m →
      ¬ (occAt hay needle m ∧ m + needle.length ≤ hay.length) :=
  jsIndexOfAux_none hay needle _ start (Nat.le_refl _) h

/-- Every span the regex scanner produces is in bounds and carries the
original text's substring as its snippet. -/
theorem spansForRegexAux_bounds (ci : Bool) (re : RE) (t : JStr) :
    ∀ rem p, ∀ sp ∈ spansForRegexAux ci re t p rem,
      sp.start ≤ sp.endPos ∧ sp.endPos ≤ t.length ∧
        sp.snippet = jsSlice t sp.start sp.endPos := by
  intro rem
  induction rem with
  | zero => intro p sp hsp; simp [spansForRegexAux] at hsp
  | succ rem ih =>
    intro p sp hsp
    cases hfm : firstMatchFrom ci re t p with
    | none => simp [spansForRegexAux, hfm] at hsp
    | some ql =>
      obtain ⟨q, l⟩ := ql
      obtain ⟨hpq, hqlen, hml, _⟩ := firstMatchFrom_some hfm
      have hb := matchLenAt_bound hqlen hml
      simp only [spansForRegexAux, hfm] at hsp
      rcases List.mem_cons.mp hsp with rfl | hsp
      · refine ⟨?_, ?_, ?_⟩
        · show q ≤ q + l
          omega
        · show q + l ≤ t.length
          exact hb
        · show clampSnippet t q (q + l) = jsSlice t q (q + l)
          unfold clampSnippet
          rw [Nat.min_eq_right hb]
      · exact ih _ sp hsp

/-- `spansForRegex` spans are in bounds with faithful snippets. -/
theorem spansForRegex_bounds (ci : Bool) (re : RE) (t : JStr) (maxM : Nat) :
    ∀ sp ∈ spansForRegex ci re t maxM,
      sp.start ≤ sp.endPos ∧ sp.endPos ≤ t.length ∧
        sp.snippet = jsSlice t sp.start sp.endPos :=
  fun sp hsp => spansForRegexAux_bounds ci re t maxM 0 sp hsp

/-- Every span the phrase scanner produces is in bounds and carries the
original text's substring, provided lowercasing preserves the text's
length. -/
theorem phraseSpansAux_bounds (t phrase : JStr)
    (hlen : (jsToLower t).length = t.length) :
    ∀ rem idx, ∀ sp ∈ phraseSpansAux t (jsToLower t) (jsToLower phrase)
        phrase.length idx rem,
      sp.start ≤ sp.endPos ∧ sp.endPos ≤ t.length ∧
        sp.snippet = jsSlice t sp.start sp.endPos := by
  intro rem
  induction rem with
  | zero => intro idx sp hsp; simp [phraseSpansAux] at hsp
  | succ rem ih =>
    intro idx sp hsp
    cases hio : jsIndexOfFrom (jsToLower t) (jsToLower phrase) idx with
    | none => simp [phraseSpansAux, hio] at hsp
    | some found =>
      obtain ⟨_, hb, _, _⟩ := jsIndexOfFrom_some hio
      have hple := jsToLower_length_ge phrase
      rw [hlen] at hb
      have hend : found + phrase.length ≤ t.length := by omega
      simp only [phraseSpansAux, hio] at hsp
      rcases List.mem_cons.mp hsp with rfl | hsp
      · refine ⟨?_, ?_, ?_⟩
        · show found ≤ found + phrase.length
          omega
        · show found + phrase.length ≤ t.length
          exact hend
        · show clampSnippet t found (found + phrase.length)
            = jsSlice t found (found + phrase.length)
          unfold clampSnippet
          rw [Nat.min_eq_right hend]
      · exact ih _ sp hsp

/-- `phraseSpans` spans are in bounds with faithful snippets, provided
lowercasing preserves the text's length. -/
theorem phraseSpans_bounds (t phrase : JStr)
    (hlen : (jsToLower t).length = t.length) (maxM : Nat) :
    ∀ sp ∈ phraseSpans t phrase maxM,
      sp.start ≤ sp.endPos ∧ sp.endPos ≤ t.length ∧
        sp.snippet = jsSlice t sp.start sp.endPos :=
  fun sp hsp => phraseSpansAux_bounds t phrase hlen maxM 0 sp hsp

/-- The flag list of the report, written out: the nine detector blocks in
source order. -/
theorem report_flags_eq (t : JStr) : (generateDeAiReport t).flags =
    (if spansForRegex true flourishRe t 60 ≠ [] then
      [⟨.rhetorical_frame, .warn, msgFlourish,
        spansForRegex true flourishRe t 60⟩] else []) ++
    (if spansForRegex true personificationRe t 60 ≠ [] then
      [⟨.personification, .warn, msgPersonification,
        spansForRegex true personificationRe t 60⟩] else []) ++
    (if spansForRegex true soundNounRe t 60 ≠ [] then
      [⟨.personification, .warn, msgSoundNoun,
        spansForRegex true soundNounRe t 60⟩] else []) ++
    (if phraseSpans t (jstr "whisper of") 40 ≠ [] then
      [⟨.personification, .warn, msgWhisperOf,
        phraseSpans t (jstr "whisper of") 40⟩] else []) ++
    (if ((VAGUE_WORDS_DEAI.map fun w =>
        spansForRegex true (wordRe (jstr w)) t 60).flatten) ≠ [] then
      [⟨.vague_language, .warn, msgVague,
        ((VAGUE_WORDS_DEAI.map fun w =>
          spansForRegex true (wordRe (jstr w)) t 60).flatten).take 80⟩]
      else []) ++
    (if spansForRegex true abstractSimileRe t 60 ≠ [] then
      [⟨.abstract_simile, .warn, msgAbstract,
        spansForRegex true abstractSimileRe t 60⟩] else []) ++
    (if spansForRegex true moralizingRe t 60 ≠ [] then
      [⟨.abstract_simile, .warn, msgMoralizing,
        spansForRegex true moralizingRe t 60⟩] else []) ++
    (if (BANNED_PHRASES.map fun p =>
        phraseSpans t (jstr p) 40).flatten ≠ [] then
      [⟨.cliche, .error, msgCliche,
        (BANNED_PHRASES.map fun p => phraseSpans t (jstr p) 40).flatten⟩]
      else []) ++
    (if ((FILLER_TARGETS.map fun w =>
        spansForRegex true (wordRe (jstr w)) t 60).flatten) ≠ [] then
      [⟨.filler, .info, msgFiller,
        ((FILLER_TARGETS.map fun w =>
          spansForRegex true (wordRe (jstr w)) t 60).flatten).take 80⟩]
      else []) := rfl

/-- The suggested-op list of the report, written out: the four op blocks in
source order. -/
theorem report_ops_eq (t : JStr) : (generateDeAiReport t).suggested_ops =
    (if spansForRegex true soundNounRe t 60 ≠ [] then
      ((spansForRegex true soundNounRe t 60).take 25).map mkSoundOp
      else []) ++
    (if phraseSpans t (jstr "whisper of") 40 ≠ [] then
      ((phraseSpans t (jstr "whisper of") 40).take 20).map mkWhisperOfOp
      else []) ++
    (if (BANNED_PHRASES.map fun p =>
        phraseSpans t (jstr p) 40).flatten ≠ [] then
      (((BANNED_PHRASES.map fun p =>
        phraseSpans t (jstr p) 40).flatten).take 20).map
          (fun sp => ⟨.delete, sp, none, noteCliche⟩) else []) ++
    (if ((FILLER_TARGETS.map fun w =>
        spansForRegex true (wordRe (jstr w)) t 60).flatten) ≠ [] then
      (((FILLER_TARGETS.map fun w =>
        spansForRegex true (wordRe (jstr w)) t 60).flatten).take 40).map
          (fun sp => ⟨.delete, sp, none, noteFiller⟩) else []) := rfl

/-- Membership in a conditional singleton pins the element. -/
theorem mem_ite_singleton {α : Type} {c : Prop} [Decidable c] {x a : α}
    (h : a ∈ if c then [x] else []) : a = x := by
  by_cases hc : c
  · rw [if_pos hc] at h
    exact List.mem_singleton.mp h
  · rw [if_neg hc] at h
    exact absurd h (List.not_mem_nil a)

/-- The span list of any flag of the report is one of the nine detector
span lists. -/
theorem mem_flags_spans {t : JStr} {flag : DeAiFlag}
    (h : flag ∈ (generateDeAiReport t).flags) :
    flag.spans = spansForRegex true flourishRe t 60
    ∨ flag.spans = spansForRegex true personificationRe t 60
    ∨ flag.spans = spansForRegex true soundNounRe t 60
    ∨ flag.spans = phraseSpans t (jstr "whisper of") 40
    ∨ flag.spans = ((VAGUE_WORDS_DEAI.map fun w =>
        spansForRegex true (wordRe (jstr w)) t 60).flatten).take 80
    ∨ flag.spans = spansForRegex true abstractSimileRe t 60
    ∨ flag.spans = spansForRegex true moralizingRe t 60
    ∨ flag.spans
        = (BANNED_PHRASES.map fun p => phraseSpans t (jstr p) 40).flatten
    ∨ flag.spans = ((FILLER_TARGETS.map fun w =>
        spansForRegex true (wordRe (jstr w)) t 60).flatten).take 80 := by
  rw [report_flags_eq t] at h
  simp only [List.mem_append] at h
  rcases h with ((((((((h | h) | h) | h) | h) | h) | h) | h) | h) <;>
    rw [mem_ite_singleton h]
  · exact Or.inl rfl
  · exact Or.inr (Or.inl rfl)
  · exact Or.inr (Or.inr (Or.inl rfl))
  · exact Or.inr (Or.inr (Or.inr (Or.inl rfl)))
  · exact Or.inr (Or.inr (Or.inr (Or.inr (Or.inl rfl))))
  · exact Or.inr (Or.inr (Or.inr (Or.inr (Or.inr (Or.inl rfl)))))
  · exact Or.inr (Or.inr (Or.inr (Or.inr (Or.inr (Or.inr (Or.inl rfl))))))
  · exact Or.inr (Or.inr (Or.inr (Or.inr (Or.inr (Or.inr (Or.inr
      (Or.inl rfl)))))))
  · exact Or.inr (Or.inr (Or.inr (Or.inr (Or.inr (Or.inr (Or.inr
      (Or.inr rfl)))))))

/-- C9 counterexample: on `tIstanbul` the lowercase of U+0130 expands to two
code units, so the cliché span `[2, 18)` is computed against the lowercased
string and overflows the 17-unit original: `end ≤ length(text)` fails (and
with it the snippet-substring property at original offsets). -/
theorem scan_span_bounds_counterexample :
    ((generateDeAiReport tIstanbul).flags.map
      fun f => f.spans.map fun s => (s.start, s.endPos)) = [[(2, 18)]]
    ∧ tIstanbul.length = 17
    ∧ ¬ (18 ≤ 17) := by decide

/-- C9 (amended): if every code unit of the text lowercases to a single
code unit (true of all ASCII text; U+0130 is the BMP exception), then every
span of every flag of `scan(text)` satisfies
`0 ≤ start ≤ end ≤ length(text)` and its snippet is exactly the original
text's substring at `[start, end)`. -/
theorem scan_spans_in_bounds (t : JStr)
    (h : ∀ c ∈ t, (jsLowerChar c).length = 1) :
    ∀ flag ∈ (generateDeAiReport t).flags, ∀ sp ∈ flag.spans,
      sp.start ≤ sp.endPos ∧ sp.endPos ≤ t.length ∧
        sp.snippet = jsSlice t sp.start sp.endPos := by
  have hlen := jsToLower_length_eq h
  intro flag hflag sp hsp
  rcases mem_flags_spans hflag with h9 | h9 | h9 | h9 | h9 | h9 | h9 | h9 | h9 <;>
    rw [h9] at hsp
  · exact spansForRegex_bounds _ _ _ _ sp hsp
  · exact spansForRegex_bounds _ _ _ _ sp hsp
  · exact spansForRegex_bounds _ _ _ _ sp hsp
  · exact phraseSpans_bounds t _ hlen 40 sp hsp
  · obtain ⟨s, hs, hsp2⟩ := List.mem_flatten.mp (List.mem_of_mem_take hsp)
    obtain ⟨w, _, rfl⟩ := List.mem_map.mp hs
    exact spansForRegex_bounds _ _ _ _ sp hsp2
  · exact spansForRegex_bounds _ _ _ _ sp hsp
  · exact spansForRegex_bounds _ _ _ _ sp hsp
  · obtain ⟨s, hs, hsp2⟩ := List.mem_flatten.mp hsp
    obtain ⟨ph, _, rfl⟩ := List.mem_map.mp hs
    exact phraseSpans_bounds t _ hlen 40 sp hsp2
  · obtain ⟨s, hs, hsp2⟩ := List.mem_flatten.mp (List.mem_of_mem_take hsp)
    obtain ⟨w, _, rfl⟩ := List.mem_map.mp hs
    exact spansForRegex_bounds _ _ _ _ sp hsp2

/-- Witness for the amended span-bounds theorem at an ASCII text whose
report is nonempty. -/
theorem scan_spans_in_bounds_witness :
    (∀ c ∈ jstr "Time stood still.", (jsLowerChar c).length = 1)
    ∧ (∀ flag ∈ (generateDeAiReport (jstr "Time stood still.")).flags,
        ∀ sp ∈ flag.spans,
          sp.start ≤ sp.endPos
          ∧ sp.endPos ≤ (jstr "Time stood still.").length
          ∧ sp.snippet = jsSlice (jstr "Time stood still.") sp.start
              sp.endPos) :=
  ⟨by decide, scan_spans_in_bounds (jstr "Time stood still.") (by decide)⟩

/-- A phrase scan with no hit is empty. -/
theorem phraseSpansAux_empty {t hay n : JStr} {plen idx rem : Nat}
    (h : jsIndexOfFrom hay n idx = none) (hrem : 1 ≤ rem) :
    phraseSpansAux t hay n plen idx rem = [] := by
  obtain ⟨r, rfl⟩ : ∃ r, rem = r + 1 := ⟨rem - 1, by omega⟩
  simp only [phraseSpansAux, h]

/-- A phrase scan whose first hit has no successor yields one span. -/
theorem phraseSpansAux_single {t hay n : JStr} {plen idx found rem : Nat}
    (h1 : jsIndexOfFrom hay n idx = some found)
    (h2 : jsIndexOfFrom hay n (found + plen) = none) (hrem : 2 ≤ rem) :
    phraseSpansAux t hay n plen idx rem
      = [⟨found, found + plen, clampSnippet t found (found + plen)⟩] := by
  obtain ⟨r, rfl⟩ : ∃ r, rem = r + 1 + 1 := ⟨rem - 2, by omega⟩
  simp only [phraseSpansAux, h1, h2]

/-- A regex scan with no match is empty. -/
theorem spansForRegexAux_empty {ci : Bool} {re : RE} {t : JStr}
    {p rem : Nat} (h : firstMatchFrom ci re t p = none) (hrem : 1 ≤ rem) :
    spansForRegexAux ci re t p rem = [] := by
  obtain ⟨r, rfl⟩ : ∃ r, rem = r + 1 := ⟨rem - 1, by omega⟩
  simp only [spansForRegexAux, h]

/-- The sound-noun op is always a replace. -/
theorem mkSoundOp_op (sp : TextSpan) : (mkSoundOp sp).op = .replace := by
  unfold mkSoundOp
  split <;> rfl

/-- The whisper-of op is always a replace. -/
theorem mkWhisperOfOp_op (sp : TextSpan) :
    (mkWhisperOfOp sp).op = .replace := rfl

/-- The cliché filter of one flag block: only a cliché-kinded block
survives. -/
theorem filter_cliche_block (c : Prop) [Decidable c] (k : DeAiFlagKind)
    (sv : DeAiSeverity) (msg : JStr) (sps : List TextSpan) :
    List.filter (fun f => decide (f.kind = DeAiFlagKind.cliche))
        (if c then [(⟨k, sv, msg, sps⟩ : DeAiFlag)] else [])
      = if k = DeAiFlagKind.cliche then
          (if c then [(⟨k, sv, msg, sps⟩ : DeAiFlag)] else []) else [] := by
  by_cases hk : k = DeAiFlagKind.cliche
  · rw [if_pos hk]
    split
    · simp [List.filter, hk]
    · rfl
  · rw [if_neg hk]
    split
    · simp [List.filter, hk]
    · rfl

/-- No sound-noun op survives the delete filter. -/
theorem filter_delete_sound (c : Prop) [Decidable c] (l : List TextSpan)
    (n : Nat) :
    List.filter (fun op => decide (op.op = DeAiOpKind.delete))
      (if c then (l.take n).map mkSoundOp else []) = [] := by
  split
  · refine List.filter_eq_nil_iff.mpr ?_
    intro a ha
    obtain ⟨sp, _, rfl⟩ := List.mem_map.mp ha
    simp [mkSoundOp_op]
  · rfl

/-- No whisper-of op survives the delete filter. -/
theorem filter_delete_whisper (c : Prop) [Decidable c] (l : List TextSpan)
    (n : Nat) :
    List.filter (fun op => decide (op.op = DeAiOpKind.delete))
      (if c then (l.take n).map mkWhisperOfOp else []) = [] := by
  split
  · refine List.filter_eq_nil_iff.mpr ?_
    intro a ha
    obtain ⟨sp, _, rfl⟩ := List.mem_map.mp ha
    simp [mkWhisperOfOp_op]
  · rfl

/-- Every delete block survives the delete filter whole. -/
theorem filter_delete_deletes (c : Prop) [Decidable c] (l : List TextSpan)
    (n : Nat) (nt : JStr) :
    List.filter (fun op => decide (op.op = DeAiOpKind.delete))
      (if c then (l.take n).map
        (fun sp => (⟨.delete, sp, none, nt⟩ : DeAiEditOp)) else [])
    = if c then (l.take n).map
        (fun sp => (⟨.delete, sp, none, nt⟩ : DeAiEditOp)) else [] := by
  split
  · refine List.filter_eq_self.mpr ?_
    intro a ha
    obtain ⟨sp, _, rfl⟩ := List.mem_map.mp ha
    simp
  · rfl

/-- `toLowerCase` distributes over concatenation. -/
theorem jsToLower_append (a b : JStr) :
    jsToLower (a ++ b) = jsToLower a ++ jsToLower b := by
  induction a with
  | nil => rfl
  | cons c rest ih =>
    show jsLowerChar c ++ jsToLower (rest ++ b)
      = (jsLowerChar c ++ jsToLower rest) ++ jsToLower b
    rw [ih, List.append_assoc]

/-- When lowercasing is offset-preserving, an occurrence of a needle in the
lowercased text is the lowercase of the original slice at those offsets. -/
theorem jsToLower_slice_eq {t fn : JStr} {p : Nat}
    (hchars : ∀ c ∈ t, (jsLowerChar c).length = 1)
    (hocc : occAt (jsToLower t) fn p)
    (hb : p + fn.length ≤ t.length) :
    jsToLower (jsSlice t p (p + fn.length)) = fn := by
  have hsl : jsSlice t p (p + fn.length) = (t.drop p).take fn.length := by
    show (t.take (p + fn.length)).drop p = _
    rw [List.drop_take]
    congr 1
    omega
  have hA : (jsToLower (t.take p)).length = p := by
    rw [jsToLower_length_eq (fun c hc => hchars c (List.mem_of_mem_take hc)),
      List.length_take]
    omega
  have hB : (jsToLower ((t.drop p).take fn.length)).length = fn.length := by
    rw [jsToLower_length_eq (fun c hc =>
      hchars c (List.mem_of_mem_drop (List.mem_of_mem_take hc))),
      List.length_take, List.length_drop]
    omega
  have hdecomp : t = t.take p ++ ((t.drop p).take fn.length
      ++ (t.drop p).drop fn.length) := by
    rw [List.take_append_drop, List.take_append_drop]
  have hocc2 := hocc
  unfold occAt at hocc2
  conv at hocc2 => lhs; rw [hdecomp]
  rw [jsToLower_append, jsToLower_append, List.drop_left' hA,
    List.take_left' hB] at hocc2
  rw [hsl]
  exact hocc2

/-- C3 counterexample: `tClichePair` contains exactly one case-insensitive
occurrence of `time stood still` (at 0), yet its single cliché flag carries
TWO spans and the report carries TWO delete ops, because a second banned
phrase (`cold as ice`) feeds the same flag and op list. -/
theorem cliche_roundtrip_counterexample :
    occAt (jsToLower tClichePair) (jstr "time stood still") 0
    ∧ (∀ m < tClichePair.length,
        occAt (jsToLower tClichePair) (jstr "time stood still") m → m = 0)
    ∧ (((generateDeAiReport tClichePair).flags.filter
        fun f => f.kind = DeAiFlagKind.cliche).map
          fun f => f.spans.length) = [2]
    ∧ (((generateDeAiReport tClichePair).suggested_ops.filter
        fun op => op.op = DeAiOpKind.delete).length) = 2 := by
  decide

/-- C3 (amended): for offset-preserving text (every code unit lowercases to
one unit) containing exactly one occurrence of `time stood still` in its
lowercase, no occurrence of any other banned phrase, and no whole-word
occurrence of the filler targets, the report has exactly one cliché flag
whose single span is `[p, p+16)` at the occurrence with the original slice
as snippet, exactly one delete op (the only delete among the suggestions)
targeting that span, and applying just that op removes exactly that slice
and keeps every other character. -/
theorem cliche_deletion_roundtrip (t : JStr) (p0 : Nat)
    (hchars : ∀ c ∈ t, (jsLowerChar c).length = 1)
    (hocc : occAt (jsToLower t) (jstr "time stood still") p0)
    (huniq : ∀ m < t.length,
      occAt (jsToLower t) (jstr "time stood still") m → m = p0)
    (hothers : ∀ ph ∈ BANNED_PHRASES, jstr ph ≠ jstr "time stood still" →
      ∀ m < t.length, ¬ occAt (jsToLower t) (jsToLower (jstr ph)) m)
    (hfiller : ∀ w ∈ FILLER_TARGETS, ∀ m ≤ t.length,
      matchLenAt true (wordRe (jstr w)) t m = none) :
    ((generateDeAiReport t).flags.filter
        fun f => f.kind = DeAiFlagKind.cliche)
      = [⟨.cliche, .error, msgCliche,
          [⟨p0, p0 + 16, jsSlice t p0 (p0 + 16)⟩]⟩]
    ∧ ((generateDeAiReport t).suggested_ops.filter
        fun op => op.op = DeAiOpKind.delete)
      = [⟨.delete, ⟨p0, p0 + 16, jsSlice t p0 (p0 + 16)⟩, none, noteCliche⟩]
    ∧ p0 + 16 ≤ t.length
    ∧ jsToLower (jsSlice t p0 (p0 + 16)) = jstr "time stood still"
    ∧ applySafeDeAiOps t
        [⟨.delete, ⟨p0, p0 + 16, jsSlice t p0 (p0 + 16)⟩, none, noteCliche⟩]
      = ⟨t.take p0 ++ t.drop (p0 + 16),
        [⟨.delete, ⟨p0, p0 + 16, jsSlice t p0 (p0 + 16)⟩, none,
          noteCliche⟩]⟩ := by
  have hlen : (jsToLower t).length = t.length := jsToLower_length_eq hchars
  have hTSSlen : (jstr "time stood still").length = 16 := by decide
  have hTSSlow : jsToLower (jstr "time stood still")
      = jstr "time stood still" := by decide
  have hTSSne : jstr "time stood still" ≠ ([] : JStr) := by decide
  have hb0 : p0 + 16 ≤ t.length := by
    have := occAt_bound hTSSne hocc
    rw [hTSSlen, hlen] at this
    exact this
  have huniqAll : ∀ m, occAt (jsToLower t) (jstr "time stood still") m →
      m = p0 := by
    intro m hm
    by_cases h2 : m < t.length
    · exact huniq m h2 hm
    · have := occAt_bound hTSSne hm
      rw [hTSSlen, hlen] at this
      omega
  have hfind : jsIndexOfFrom (jsToLower t) (jstr "time stood still") 0
      = some p0 := by
    cases hio : jsIndexOfFrom (jsToLower t) (jstr "time stood still") 0 with
    | none =>
      exfalso
      apply jsIndexOfFrom_none hio p0 (Nat.zero_le p0)
      refine ⟨hocc, ?_⟩
      rw [hTSSlen, hlen]
      exact hb0
    | some found =>
      obtain ⟨_, _, hof, _⟩ := jsIndexOfFrom_some hio
      rw [huniqAll found hof]
  have hnone2 : jsIndexOfFrom (jsToLower t) (jstr "time stood still")
      (p0 + 16) = none := by
    cases hio : jsIndexOfFrom (jsToLower t) (jstr "time stood still")
        (p0 + 16) with
    | none => rfl
    | some f2 =>
      exfalso
      obtain ⟨hge, _, hof, _⟩ := jsIndexOfFrom_some hio
      have := huniqAll f2 hof
      omega
  have hclamp : clampSnippet t p0 (p0 + 16) = jsSlice t p0 (p0 + 16) := by
    unfold clampSnippet
    rw [Nat.min_eq_right hb0]
  have hTSSspans : phraseSpans t (jstr "time stood still") 40
      = [⟨p0, p0 + 16, jsSlice t p0 (p0 + 16)⟩] := by
    show phraseSpansAux t (jsToLower t) (jsToLower (jstr "time stood still"))
        (jstr "time stood still").length 0 40 = _
    rw [hTSSlow, hTSSlen, phraseSpansAux_single hfind hnone2 (by omega),
      hclamp]
  have hphpos : ∀ ph ∈ BANNED_PHRASES,
      0 < (jsToLower (jstr ph)).length := by decide
  have hotherspans : ∀ ph ∈ BANNED_PHRASES,
      jstr ph ≠ jstr "time stood still" →
      phraseSpans t (jstr ph) 40 = [] := by
    intro ph hph hne
    show phraseSpansAux t (jsToLower t) (jsToLower (jstr ph))
        (jstr ph).length 0 40 = []
    refine phraseSpansAux_empty ?_ (by omega)
    cases hio : jsIndexOfFrom (jsToLower t) (jsToLower (jstr ph)) 0 with
    | none => rfl
    | some f2 =>
      exfalso
      obtain ⟨_, hbnd, hof, _⟩ := jsIndexOfFrom_some hio
      have hplen := hphpos ph hph
      rw [hlen] at hbnd
      exact hothers ph hph hne f2 (by omega) hof
  have hcs : (BANNED_PHRASES.map fun p => phraseSpans t (jstr p) 40).flatten
      = [⟨p0, p0 + 16, jsSlice t p0 (p0 + 16)⟩] := by
    have e1 := hotherspans "like a dream" (by decide) (by decide)
    have e2 := hotherspans "like a nightmare" (by decide) (by decide)
    have e4 := hotherspans "in the blink of an eye" (by decide) (by decide)
    have e5 := hotherspans "cold as ice" (by decide) (by decide)
    have e6 := hotherspans "silence was deafening" (by decide) (by decide)
    simp only [BANNED_PHRASES, List.map_cons, List.map_nil]
    rw [e1, e2, hTSSspans, e4, e5, e6]
    rfl
  have hfillsp : ∀ w ∈ FILLER_TARGETS,
      spansForRegex true (wordRe (jstr w)) t 60 = [] := by
    intro w hw
    show spansForRegexAux true (wordRe (jstr w)) t 0 60 = []
    refine spansForRegexAux_empty ?_ (by omega)
    cases hfm : firstMatchFrom true (wordRe (jstr w)) t 0 with
    | none => rfl
    | some ql =>
      exfalso
      obtain ⟨q, l⟩ := ql
      obtain ⟨_, hqlen, hml, _⟩ := firstMatchFrom_some hfm
      rw [hfiller w hw q hqlen] at hml
      exact absurd hml (by simp)
  have hfillflat : (FILLER_TARGETS.map fun w =>
      spansForRegex true (wordRe (jstr w)) t 60).flatten = [] := by
    simp only [FILLER_TARGETS, List.map_cons, List.map_nil]
    rw [hfillsp "very" (by decide), hfillsp "really" (by decide),
      hfillsp "just" (by decide), hfillsp "somehow" (by decide)]
    rfl
  refine ⟨?_, ?_, hb0, ?_, rfl⟩
  · rw [report_flags_eq t, hcs, hfillflat]
    simp only [List.filter_append, filter_cliche_block]
    simp
  · rw [report_ops_eq t, hcs, hfillflat]
    simp only [List.filter_append, filter_delete_sound,
      filter_delete_whisper, filter_delete_deletes]
    simp
  · have := jsToLower_slice_eq hchars hocc (by rw [hTSSlen]; exact hb0)
    rw [hTSSlen] at this
    exact this

/-- Witness for the amended cliché round-trip at `Time stood still.`:
every hypothesis holds there at occurrence position 0. -/
theorem cliche_deletion_roundtrip_witness :
    ((∀ c ∈ jstr "Time stood still.", (jsLowerChar c).length = 1)
    ∧ occAt (jsToLower (jstr "Time stood still."))
        (jstr "time stood still") 0
    ∧ (∀ m < (jstr "Time stood still.").length,
        occAt (jsToLower (jstr "Time stood still."))
          (jstr "time stood still") m → m = 0)
    ∧ (∀ ph ∈ BANNED_PHRASES, jstr ph ≠ jstr "time stood still" →
        ∀ m < (jstr "Time stood still.").length,
          ¬ occAt (jsToLower (jstr "Time stood still."))
            (jsToLower (jstr ph)) m)
    ∧ (∀ w ∈ FILLER_TARGETS, ∀ m ≤ (jstr "Time stood still.").length,
        matchLenAt true (wordRe (jstr w)) (jstr "Time stood still.") m
          = none))
    ∧ ((generateDeAiReport (jstr "Time stood still.")).flags.filter
        fun f => f.kind = DeAiFlagKind.cliche)
      = [⟨.cliche, .error, msgCliche,
          [⟨0, 16, jsSlice (jstr "Time stood still.") 0 16⟩]⟩] := by
  refine ⟨⟨by decide, by decide, by decide, by decide, by decide⟩, ?_⟩
  exact (cliche_deletion_roundtrip (jstr "Time stood still.") 0 (by decide)
    (by decide) (by decide) (by decide) (by decide)).1

/-- Witness for current pointer correctness: the first upsert on the fresh
store. -/
theorem getArtifactLatest_returns_latest_witness :
    StoreWF store0 ∧
    (∃ v : Nat, idValidate call1.type call1.payload = some v ∧
      getArtifactLatest store1 call1.projectId call1.type call1.name
        = some ⟨(⟨0, .style_profile, 0, 1, 1⟩ : UpsertResult).artifact_id,
            call1.type, call1.name,
            (⟨0, .style_profile, 0, 1, 1⟩ : UpsertResult).schema_version,
            (⟨0, .style_profile, 0, 1, 1⟩ : UpsertResult).revision, v⟩) :=
  ⟨storeWF_store0,
    getArtifactLatest_returns_latest idValidate storeWF_store0
      (show upsertArtifact idValidate store0 call1
        = some (store1, ⟨0, .style_profile, 0, 1, 1⟩) by decide)⟩

end ProWriter
